import Mathlib

/-!
Verification of the RAG-Agent ingestion-and-retrieval pipeline.

This file is a shallow embedding, in Lean 4, of the core of the
`OnRRR/RAG-Agent` repository:

* `src/ingest/text_splitter.py`  — `TextChunker`
* `src/ingest/sections.py`       — `SectionExtractor`
* `src/ingest/models.py`         — `Document` / `DocumentSection` / `DocumentChunk`
* `src/ingest/document_loader.py`— `DocumentLoader`
* `src/ingest/pipeline.py`       — `IngestionPipeline`
* `src/index/faiss_store.py`     — `FaissDocumentIndex`
* `src/retriever/faiss_retriever.py` — `FaissRetriever`

Modelling conventions:

* Python strings are modelled as `List Char` (sequences of characters);
  all inputs in scope are ASCII, so the ASCII behaviour of Python's
  `str.strip`, `str.split`, `str.isupper`, `\s`, `\w` is embedded.
* Embedding vectors are modelled with exact `Int` components instead of
  `float32`; no claim in scope depends on floating-point rounding.
  A 2D numpy array is a rectangular matrix, modelled as a row list plus
  its common row width `ncols` (numpy's `shape[1]`).
* PDF font sizes (Python floats) are modelled as exact rationals
  (`PyFloat`, an unreduced numerator/denominator pair with positive
  denominators); the `1.35` factor of the heading heuristic becomes
  `27/20`, and `>=` becomes the cross-multiplied integer comparison.
* File-system state (the faiss binary file and the `metadata.jsonl`
  file of a storage directory) is modelled as an explicit `Storage`
  value; a missing file is `none`.  `faiss.write_index` stores the
  index dimension `d` together with the vectors, which `VecFile.d`
  models.  The binary/JSON serialisation round-trip is assumed exact.
* Fallible Python code (code that `raise`s) returns `Except`/`Option`;
  mutation-then-raise order is preserved, so a returned unchanged state
  models "the exception left the object untouched".
-/

set_option maxRecDepth 100000

/-- Shorthand turning a Lean string literal into the `List Char` that
models a Python string. -/
def s (x : String) : List Char := x.data

/-- Python's whitespace set for `str.strip` / `str.split` and the ASCII
part of the regex class `\s`: space, tab, newline, carriage return,
vertical tab, form feed. -/
def pyIsSpace (c : Char) : Bool :=
  c = ' ' || c = '\t' || c = '\n' || c = '\r' || c = '\x0b' || c = '\x0c'

/-- Drop trailing characters satisfying `p` (helper for `str.strip`). -/
def dropTrailing (p : Char → Bool) (l : List Char) : List Char :=
  (l.reverse.dropWhile p).reverse

/-- Python `str.strip()`: drop leading and trailing whitespace. -/
def pyStrip (l : List Char) : List Char :=
  dropTrailing pyIsSpace (l.dropWhile pyIsSpace)

/-- Helper for `pySplit`: scan from the right, returning the finished
tokens and the token currently being built. -/
def pySplitGo : List Char → List (List Char) × List Char
  | [] => ([], [])
  | c :: cs =>
    let r := pySplitGo cs
    if pyIsSpace c then
      (if r.2 = [] then r.1 else r.2 :: r.1, [])
    else
      (r.1, c :: r.2)

/-- Python `str.split()` with no separator: split on runs of whitespace,
producing no empty tokens. -/
def pySplit (l : List Char) : List (List Char) :=
  let r := pySplitGo l
  if r.2 = [] then r.1 else r.2 :: r.1

/-- Helper for `collapseSpaceTab`: the flag records whether the previous
character was a space/tab (i.e. we are inside a run that has already
emitted its single `' '`). -/
def collapseSpaceTabGo : Bool → List Char → List Char
  | _, [] => []
  | inRun, c :: cs =>
    if c = ' ' || c = '\t' then
      if inRun then collapseSpaceTabGo true cs
      else ' ' :: collapseSpaceTabGo true cs
    else c :: collapseSpaceTabGo false cs

/-- Model of `re.sub(r"[ \t]+", " ", text)`: collapse each run of spaces/tabs to
a single space. -/
def collapseSpaceTab (l : List Char) : List Char :=
  collapseSpaceTabGo false l

/-- Replacement for a run of `n` consecutive newlines under
`re.sub(r"\n{3,}", "\n\n", text)`: runs of three or more become exactly
two, shorter runs are kept. -/
def nlEmit (n : Nat) : List Char :=
  if 3 ≤ n then ['\n', '\n'] else List.replicate n '\n'

/-- Helper for `collapseNewlines`: returns the length of the leading
newline run of the input together with the collapsed remainder after
that run. -/
def collapseNLGo : List Char → Nat × List Char
  | [] => (0, [])
  | c :: cs =>
    let r := collapseNLGo cs
    if c = '\n' then (r.1 + 1, r.2)
    else (0, c :: (nlEmit r.1 ++ r.2))

/-- Model of `re.sub(r"\n{3,}", "\n\n", text)`. -/
def collapseNewlines (l : List Char) : List Char :=
  nlEmit (collapseNLGo l).1 ++ (collapseNLGo l).2

/-- Model of `TextChunker._normalise_whitespace` (`src/ingest/text_splitter.py`):
collapse space/tab runs, collapse 3+ newlines to 2, strip the ends. -/
def normaliseWhitespace (l : List Char) : List Char :=
  pyStrip (collapseNewlines (collapseSpaceTab l))

/-- Fuel-driven core of the window loop
`for start in range(0, len(tokens), step)` of `TextChunker.split`:
each iteration takes `tokens[start : start + size]` (non-empty windows
only, mirroring `if not window: continue`) and advances by `step`.
The fuel is initialised to the token count, which bounds the number of
iterations whenever `step ≥ 1`. -/
def slideGo (size step : Nat) : Nat → List α → List (List α)
  | 0, _ => []
  | _, [] => []
  | fuel + 1, x :: rest =>
    let w := (x :: rest).take size
    let tl := slideGo size step fuel ((x :: rest).drop step)
    if w.isEmpty then tl else w :: tl

/-- The window loop of `TextChunker.split`.  `step = 0` cannot happen in
the source (the constructor enforces `overlap < window_size`); the guard
only makes the function total. -/
def slideWindows (size step : Nat) (xs : List α) : List (List α) :=
  if step = 0 then [] else slideGo size step xs.length xs

/-- Configuration of `TextChunker` (`chunk_size_tokens`,
`chunk_overlap_tokens`).  The constructor's validity checks become the
predicate `TextChunker.valid`. -/
structure TextChunker where
  chunkSizeTokens : Nat
  chunkOverlapTokens : Nat
deriving DecidableEq

/-- The `ValueError` checks of `TextChunker.__init__`
(`chunk_size_tokens > 0`, `0 ≤ overlap < chunk_size`). -/
def TextChunker.valid (c : TextChunker) : Prop :=
  0 < c.chunkSizeTokens ∧ c.chunkOverlapTokens < c.chunkSizeTokens

/-- Model of `TextChunker.split` (`src/ingest/text_splitter.py`, lines 21-38):
normalise whitespace, split into tokens, slide a window of
`chunk_size_tokens` advancing by `chunk_size_tokens - chunk_overlap_tokens`,
join each window with single spaces. -/
def TextChunker.split (c : TextChunker) (text : List Char) : List (List Char) :=
  let collapsed := normaliseWhitespace text
  if collapsed = [] then []
  else
    let tokens := pySplit collapsed
    if tokens = [] then []
    else
      (slideWindows c.chunkSizeTokens (c.chunkSizeTokens - c.chunkOverlapTokens) tokens).map
        (List.intercalate [' '])

/-- Chunk count asserted by the spec ("`ceil(max(0, token_count - overlap)
/ (window_size - overlap))`"), written with truncated `Nat` subtraction
(which already realises the `max 0`).  Modelled from the spec's words,
for comparison with the behaviour of `TextChunker.split`. -/
def specChunkCount (windowSize overlap tokenCount : Nat) : Nat :=
  (tokenCount - overlap + (windowSize - overlap) - 1) / (windowSize - overlap)

/-- ASCII behaviour of the regex class `\w` (word character). -/
def isWordChar (c : Char) : Bool := c.isAlphanum || c = '_'

/-- Lower-case a modelled string (ASCII; realises `re.IGNORECASE` by
comparing lower-cased text against lower-case keywords). -/
def lowerList (l : List Char) : List Char := l.map Char.toLower

/-- Does `str` start with `pat`? -/
def startsList : List Char → List Char → Bool
  | [], _ => true
  | _ :: _, [] => false
  | a :: as, b :: bs => a = b && startsList as bs

/-- Regex word boundary `\b` after an initial match of `pat`: the next
character of `str` (if any) is not a word character. -/
def boundaryAfter (pat str : List Char) : Bool :=
  match str.drop pat.length with
  | [] => true
  | c :: _ => !isWordChar c

/-- One keyword alternative matched at the start of the line followed by
a word boundary (the shape of every `SECTION_KEYWORDS` regex). -/
def altMatch (pat str : List Char) : Bool :=
  startsList pat str && boundaryAfter pat str

/-- The `works\s+cited` alternative of the `references` pattern:
`works`, one or more whitespace characters, `cited`, word boundary. -/
def worksCitedMatch (str : List Char) : Bool :=
  startsList (s ("works")) str &&
    (match str.drop 5 with
     | [] => false
     | c :: _ =>
       pyIsSpace c && altMatch (s ("cited")) ((str.drop 5).dropWhile pyIsSpace))

/-- One entry of the `SECTION_KEYWORDS` table of `src/ingest/sections.py`:
the canonical slug, the expanded regex alternatives (e.g. `methods?`
becomes `methods` and `method`), and whether the `works\s+cited`
alternative applies. -/
structure KeywordPattern where
  slug : List Char
  alts : List (List Char)
  worksCited : Bool
deriving DecidableEq

/-- Model of `pattern.search(text)` for a `^\s*(alt1|alt2|...)\b` pattern with
`re.IGNORECASE`: skip leading whitespace, lower-case, then try each
alternative anchored at the start with a trailing word boundary. -/
def KeywordPattern.patSearch (p : KeywordPattern) (str : List Char) : Bool :=
  let t := lowerList (str.dropWhile pyIsSpace)
  p.alts.any (fun a => altMatch a t) || (p.worksCited && worksCitedMatch t)

/-- The `SECTION_KEYWORDS` table (`src/ingest/sections.py`, lines 16-25),
in the source's insertion order. -/
def SECTION_KEYWORDS : List KeywordPattern :=
  [⟨s ("abstract"), [s ("abstract")], false⟩,
   ⟨s ("introduction"), [s ("introduction")], false⟩,
   ⟨s ("method"), [s ("methods"), s ("method"), s ("methodology"), s ("approach")], false⟩,
   ⟨s ("results"), [s ("results"), s ("result"), s ("findings")], false⟩,
   ⟨s ("discussion"), [s ("discussion"), s ("analysis")], false⟩,
   ⟨s ("conclusion"), [s ("conclusions"), s ("conclusion"), s ("summary")], false⟩,
   ⟨s ("references"), [s ("references"), s ("bibliography")], true⟩,
   ⟨s ("acknowledgements"),
     [s ("acknowledgements"), s ("acknowledgments"), s ("acknowledgement"), s ("acknowledgment")],
     false⟩]

/-- Model of `any(keyword.search(text) for keyword in SECTION_KEYWORDS.values())`. -/
def anyKeywordMatch (str : List Char) : Bool :=
  SECTION_KEYWORDS.any (fun p => p.patSearch str)

/-- Python `str.isupper()` for ASCII text: at least one cased character
and no lower-case character. -/
def pyIsUpper (l : List Char) : Bool :=
  l.any Char.isUpper && l.all (fun c => !c.isLower)

/-- Model of `re.match(r"^#+\s+\w+", line)`: one or more `#`, whitespace, then a
word character (a markdown heading marker). -/
def mdHeading (l : List Char) : Bool :=
  match l with
  | '#' :: _ =>
    let r := l.dropWhile (fun c => c = '#')
    (match r with
     | [] => false
     | c :: _ =>
       pyIsSpace c &&
         (match r.dropWhile pyIsSpace with
          | [] => false
          | w :: _ => isWordChar w))
  | _ => false

/-- Fuel-driven tail of the numbered-outline regex
`^[0-9]+(\.[0-9]+)*\s+\w` after the leading digit run: zero or more
`.digits` groups (matched greedily), then whitespace and a word
character.  The fuel (initialised to the remaining length) bounds the
recursion; each group consumes at least two characters. -/
def numberedTail (fuel : Nat) (l : List Char) : Bool :=
  match fuel, l with
  | 0, _ => false
  | f + 1, '.' :: r =>
    let r1 := r.dropWhile Char.isDigit
    if r1.length = r.length then false else numberedTail f r1
  | _, [] => false
  | _, c :: _ =>
    pyIsSpace c &&
      (match l.dropWhile pyIsSpace with
       | [] => false
       | w :: _ => isWordChar w)

/-- Model of `re.match(r"^[0-9]+(\.[0-9]+)*\s+\w", text)`, matched greedily (the
backtracking cases of the regex engine are not exercised by any input in
scope). -/
def numberedOutline (l : List Char) : Bool :=
  let r := l.dropWhile Char.isDigit
  if r.length = l.length then false else numberedTail r.length r

/-- Model of `SectionExtractor._line_is_section_heading`
(`src/ingest/sections.py`, lines 318-328): the text-mode heading
classifier — reject empty or >140-character lines, then accept keyword
matches, all-uppercase lines of at most 10 words, or markdown headings. -/
def lineIsSectionHeading (line : List Char) : Bool :=
  if line.isEmpty || 140 < line.length then false
  else if anyKeywordMatch line then true
  else if pyIsUpper line && (pySplit line).length ≤ 10 then true
  else if mdHeading line then true
  else false

/-- Characters removed by `re.sub(r"^[0-9.\-\s]+", "", heading)`. -/
def headingPrefixChar (c : Char) : Bool :=
  c.isDigit || c = '.' || c = '-' || pyIsSpace c

/-- Characters removed by `re.sub(r"[:\-]+$", "", heading)`. -/
def headingSuffixChar (c : Char) : Bool := c = ':' || c = '-'

/-- Single `\s+` run replacement for the slug fallback
`re.sub(r"\s+", "_", lower)`. -/
def slugWsGo : Bool → List Char → List Char
  | _, [] => []
  | inRun, c :: cs =>
    if pyIsSpace c then
      if inRun then slugWsGo true cs else '_' :: slugWsGo true cs
    else c :: slugWsGo false cs

/-- Model of `SectionExtractor._normalise_heading` (`src/ingest/sections.py`,
lines 192-203): strip numeric/punctuation prefixes and trailing
colons/dashes, canonicalise via the keyword table (first match in
insertion order wins), else derive a slug by lower-casing, replacing
whitespace runs with `_`, truncating to 40 characters.  Returns
`(slug, display title)`. -/
def normaliseHeading (raw : List Char) : List Char × List Char :=
  let cleaned1 := (pyStrip raw).dropWhile headingPrefixChar
  let cleaned2 := pyStrip (dropTrailing headingSuffixChar cleaned1)
  let cleaned := if cleaned2 = [] then s ("Section") else cleaned2
  match (SECTION_KEYWORDS.find? (fun p => p.patSearch cleaned)).map KeywordPattern.slug with
  | some k => (k, cleaned)
  | none =>
    let t := (slugWsGo false (lowerList cleaned)).take 40
    (if t = [] then s ("section") else t, cleaned)

/-- The metadata dictionary attached to a section: `section_type` (absent
only for the PDF plain-text fallback section, which passes no metadata)
and the optional `is_reference` flag (dictionary-key presence is
modelled as the `Bool`). -/
structure SectionMeta where
  sectionType : Option (List Char)
  isReference : Bool
deriving DecidableEq, Inhabited

/-- Model of `DocumentSection` (`src/ingest/models.py`). -/
structure DocumentSection where
  name : List Char
  title : List Char
  text : List Char
  pageStart : Nat
  pageEnd : Nat
  metadata : SectionMeta
deriving DecidableEq, Inhabited

/-- The mutable accumulator state shared by
`SectionExtractor._segment_into_sections` (PDF) and
`SectionExtractor._extract_from_text`: the completed sections, the line
buffer of the current section, its name/title/metadata, and the page (or
line number) at which it starts. -/
structure SegState where
  sections : List DocumentSection
  currentLines : List (List Char)
  currentName : List Char
  currentTitle : List Char
  currentMeta : SectionMeta
  sectionStart : Nat
deriving DecidableEq

/-- The local `flush_section(end_page)` closure: join the buffered lines,
strip, and append a completed section unless the content is empty. -/
def flushSection (st : SegState) (endPage : Nat) : SegState :=
  let content := pyStrip (List.intercalate ['\n'] st.currentLines)
  if content = [] then { st with currentLines := [] }
  else
    { st with
      sections := st.sections ++
        [{ name := st.currentName, title := st.currentTitle, text := content,
           pageStart := st.sectionStart, pageEnd := endPage, metadata := st.currentMeta }],
      currentLines := [] }

/-- The per-line parameters distinguishing the two otherwise identical
segmentation loops: the page (or 1-based line number) of a line, the
heading classifier, the text used when the line opens a section (the
stripped line in text mode, `line.text` in PDF mode), and the text
accumulated when the line is body text (the raw line in text mode,
`line.text` in PDF mode). -/
structure SegParams (α : Type) where
  pg : α → Nat
  isHead : α → Bool
  headTxt : α → List Char
  bodyTxt : α → List Char

/-- One iteration of the segmentation loop: a heading flushes the current
accumulator with end page `page - 1` (or `page` when the section started
on this very page), then re-seeds the accumulator with the heading line,
its normalised name/title, and metadata tagging `references` sections
with `is_reference=True`; a body line is appended to the buffer. -/
def segStep (P : SegParams α) (st : SegState) (a : α) : SegState :=
  if P.isHead a then
    let st1 := flushSection st (if st.sectionStart < P.pg a then P.pg a - 1 else P.pg a)
    let nt := normaliseHeading (P.headTxt a)
    { st1 with
      sectionStart := P.pg a,
      currentName := nt.1,
      currentTitle := nt.2,
      currentMeta := { sectionType := some nt.1, isReference := decide (nt.1 = s ("references")) },
      currentLines := [P.headTxt a] }
  else { st with currentLines := st.currentLines ++ [P.bodyTxt a] }

/-- The `for line in lines` loop of both segmentation routines. -/
def segLoop (P : SegParams α) : SegState → List α → SegState
  | st, [] => st
  | st, a :: rest => segLoop P (segStep P st a) rest

/-- Exact-rational model of a Python float: an unreduced fraction.  All
values constructed in this development have a positive denominator, for
which `PyFloat.le` is the correct order comparison. -/
structure PyFloat where
  num : Int
  den : Int
deriving DecidableEq

/-- Whole-number float literal. -/
instance (n : Nat) : OfNat PyFloat n := ⟨⟨n, 1⟩⟩

/-- Exact float addition. -/
def PyFloat.add (a b : PyFloat) : PyFloat := ⟨a.num * b.den + b.num * a.den, a.den * b.den⟩

/-- Exact float multiplication. -/
def PyFloat.mul (a b : PyFloat) : PyFloat := ⟨a.num * b.num, a.den * b.den⟩

/-- Model of `sum(...)` over floats. -/
def PyFloat.sum (l : List PyFloat) : PyFloat := l.foldl PyFloat.add ⟨0, 1⟩

/-- Division of a float by a positive integer count. -/
def PyFloat.divNat (a : PyFloat) (n : Nat) : PyFloat := ⟨a.num, a.den * n⟩

/-- Model of `a <= b` for exact floats with positive denominators, by
cross-multiplication. -/
def PyFloat.le (a b : PyFloat) : Bool := decide (a.num * b.den ≤ b.num * a.den)

/-- A PDF line with its layout signal (`LineInfo` of
`src/ingest/sections.py`); font sizes are exact rationals. -/
structure LineInfo where
  text : List Char
  page : Nat
  fontSize : PyFloat
  isBold : Bool
deriving DecidableEq

/-- Model of `avg_font = sum(font sizes) / max(len(lines), 1)`. -/
def avgFont (lines : List LineInfo) : PyFloat :=
  PyFloat.divNat (PyFloat.sum (lines.map LineInfo.fontSize)) (max lines.length 1)

/-- Model of `SectionExtractor._looks_like_heading` (`src/ingest/sections.py`,
lines 175-190): the PDF-mode heading classifier — reject empty or
>160-character lines, then accept keyword matches, font size at least
1.35× the average, bold lines of ≤12 words, numbered-outline lines of
≤15 words, or all-uppercase lines of ≤12 words. -/
def looksLikeHeading (line : LineInfo) (avg : PyFloat) : Bool :=
  let text := pyStrip line.text
  if text.isEmpty || 160 < text.length then false
  else if anyKeywordMatch text then true
  else if PyFloat.le (PyFloat.mul avg ⟨27, 20⟩) line.fontSize then true
  else if line.isBold && (pySplit text).length ≤ 12 then true
  else if numberedOutline text && (pySplit text).length ≤ 15 then true
  else if pyIsUpper text && (pySplit text).length ≤ 12 then true
  else false

/-- Parameter instantiation for `_segment_into_sections` (PDF mode). -/
def pdfSegParams (avg : PyFloat) : SegParams LineInfo :=
  { pg := LineInfo.page, isHead := fun l => looksLikeHeading l avg,
    headTxt := LineInfo.text, bodyTxt := LineInfo.text }

/-- Model of `SectionExtractor._segment_into_sections` (`src/ingest/sections.py`,
lines 130-173): seed a `front_matter` accumulator at the first line's
page, run the heading/body loop, and finally flush at the last line's
page. -/
def segmentIntoSections (lines : List LineInfo) : List DocumentSection :=
  match lines with
  | [] => []
  | l0 :: rest =>
    let avg := avgFont (l0 :: rest)
    let st0 : SegState :=
      { sections := [], currentLines := [],
        currentName := s ("front_matter"), currentTitle := s ("Front Matter"),
        currentMeta := { sectionType := some (s ("front_matter")), isReference := false },
        sectionStart := l0.page }
    (flushSection (segLoop (pdfSegParams avg) st0 (l0 :: rest))
      ((l0 :: rest).getLast (List.cons_ne_nil l0 rest)).page).sections

/-- The `if not sections` fallback of `_extract_from_pdf`
(`src/ingest/sections.py`, lines 84-95): a single `body` section joining
all line texts, spanning pages 1 to `page_count`, with an empty metadata
dictionary. -/
def pdfSectionsOrFallback (lines : List LineInfo) (pageCount : Nat) : List DocumentSection :=
  let secs := segmentIntoSections lines
  if secs = [] then
    [{ name := s ("body"), title := s ("Body"),
       text := List.intercalate ['\n'] (lines.map LineInfo.text),
       pageStart := 1, pageEnd := pageCount,
       metadata := { sectionType := none, isReference := false } }]
  else secs

/-- Helper for `pySplitlines`: split at `\n`, `\r\n` or `\r`, keeping the
trailing open line (possibly empty). -/
def splitlinesGo : List Char → List (List Char)
  | [] => [[]]
  | '\n' :: rest => [] :: splitlinesGo rest
  | '\r' :: '\n' :: rest => [] :: splitlinesGo rest
  | '\r' :: rest => [] :: splitlinesGo rest
  | c :: rest =>
    match splitlinesGo rest with
    | [] => [[c]]
    | l :: ls => (c :: l) :: ls

/-- Python `str.splitlines()` restricted to the `\n` / `\r\n` / `\r`
line boundaries (the only ones occurring in inputs in scope): a final
line terminator produces no trailing empty line. -/
def pySplitlines (l : List Char) : List (List Char) :=
  let r := splitlinesGo l
  if r.getLast? = some [] then r.dropLast else r

/-- Python `enumerate(lines, start=i)`. -/
def enumFrom : Nat → List α → List (Nat × α)
  | _, [] => []
  | i, a :: rest => (i, a) :: enumFrom (i + 1) rest

/-- Model of `SectionExtractor._infer_title_from_text` (`src/ingest/sections.py`,
lines 310-316): the first line whose stripped length is in `[5, 200]`. -/
def inferTitleFromText : List (List Char) → Option (List Char)
  | [] => none
  | l :: rest =>
    let st := pyStrip l
    if 5 ≤ st.length ∧ st.length ≤ 200 then some st else inferTitleFromText rest

/-- Parameter instantiation for `_extract_from_text`: a line's "page" is
its 1-based index, the classifier and the section-opening text use the
stripped line, body lines are accumulated verbatim. -/
def textSegParams : SegParams (Nat × List Char) :=
  { pg := Prod.fst, isHead := fun p => lineIsSectionHeading (pyStrip p.2),
    headTxt := fun p => pyStrip p.2, bodyTxt := Prod.snd }

/-- The segmentation part of `SectionExtractor._extract_from_text`
(`src/ingest/sections.py`, lines 243-284): seed a `body` accumulator
titled by the inferred title, loop over the enumerated lines, and flush
at `len(lines)`. -/
def textSegFinal (raw : List Char) : SegState :=
  let lines := pySplitlines raw
  let title := inferTitleFromText lines
  let st0 : SegState :=
    { sections := [], currentLines := [],
      currentName := s ("body"), currentTitle := title.getD (s ("Body")),
      currentMeta := { sectionType := some (s ("body")), isReference := false },
      sectionStart := 1 }
  flushSection (segLoop textSegParams st0 (enumFrom 1 lines)) lines.length

/-- Model of `SectionExtractor._extract_from_text` section list
(`src/ingest/sections.py`, lines 286-296 for the fallback): if no
section was emitted, a single `body` section carries the raw text and
spans lines 1 to `len(lines)`. -/
def extractFromTextSections (raw : List Char) : List DocumentSection :=
  let stF := textSegFinal raw
  if stF.sections = [] then
    [{ name := s ("body"), title := stF.currentTitle, text := raw,
       pageStart := 1, pageEnd := (pySplitlines raw).length,
       metadata := { sectionType := some (s ("body")), isReference := false } }]
  else stF.sections

/-- The page-range discipline of an emitted section list: each section's
range is well-formed and consecutive sections never move backwards
(the next section starts no earlier than the previous one ends). -/
def RangesOk (l : List DocumentSection) : Prop :=
  (∀ x ∈ l, x.pageStart ≤ x.pageEnd) ∧
    List.Chain' (fun a b => a.pageEnd ≤ b.pageStart) l

/-- A PDF layout with two keyword headings and their body text all on
page 1 (uniform font, nothing bold): the segmentation edge case in which
a heading appears on the page where the current section started. -/
def cexPdfLines : List LineInfo :=
  [{ text := s ("Introduction"), page := 1, fontSize := 10, isBold := false },
   { text := s ("some body text here"), page := 1, fontSize := 10, isBold := false },
   { text := s ("Methods"), page := 1, fontSize := 10, isBold := false },
   { text := s ("more body text"), page := 1, fontSize := 10, isBold := false }]

/-- The metadata dictionary built by `DocumentChunk.from_section`
(`src/ingest/models.py`, lines 62-77): chunk/section indices, source,
section provenance, and optional `is_reference` / `title` (dictionary
key presence modelled as `Bool` / `Option`). -/
structure ChunkMeta where
  chunkIndex : Nat
  sectionIndex : Nat
  source : List Char
  sectionName : List Char
  sectionTitle : List Char
  pageStart : Nat
  pageEnd : Nat
  sectionType : List Char
  isReference : Bool
  title : Option (List Char)
deriving DecidableEq, Inhabited

/-- Model of `DocumentChunk` (`src/ingest/models.py`).  The optional provenance
fields are always populated by `from_section`, the only constructor the
pipeline uses. -/
structure DocumentChunk where
  documentId : List Char
  chunkId : List Char
  text : List Char
  sectionName : List Char
  sectionTitle : List Char
  pageStart : Nat
  pageEnd : Nat
  metadata : ChunkMeta
deriving DecidableEq, Inhabited

/-- One line of `metadata.jsonl`, i.e. the dictionary produced by
`FaissDocumentIndex._serialise_chunk` (`src/index/faiss_store.py`,
lines 63-69): `document_id`, `chunk_id`, `text`, `metadata`. -/
structure SerializedChunk where
  documentId : List Char
  chunkId : List Char
  text : List Char
  metadata : ChunkMeta
deriving DecidableEq, Inhabited

/-- Model of `FaissDocumentIndex._serialise_chunk`. -/
def serialiseChunk (c : DocumentChunk) : SerializedChunk :=
  { documentId := c.documentId, chunkId := c.chunkId, text := c.text, metadata := c.metadata }

/-- A 2D numpy float array: row list plus the common row width
(`shape[1]`).  `wellFormed` is numpy's rectangularity. -/
structure EmbMatrix where
  rows : List (List Int)
  ncols : Nat
deriving DecidableEq

/-- Rectangularity of a numpy 2D array: every row has `ncols` entries. -/
def EmbMatrix.wellFormed (m : EmbMatrix) : Prop := ∀ r ∈ m.rows, r.length = m.ncols

/-- In-memory state of `FaissDocumentIndex` (`src/index/faiss_store.py`):
the index dimension, the vectors held by the `IndexFlatIP`, and the
parallel `_metadata` list.  The `storage_dir` path is omitted — the
claims in scope never distinguish storage locations. -/
structure FaissIndex where
  dim : Nat
  vectors : List (List Int)
  metadata : List SerializedChunk
deriving DecidableEq

/-- Model of `FaissDocumentIndex.add` (`src/index/faiss_store.py`, lines 27-34):
both shape checks precede both mutations, so a failed call returns the
untouched index together with the `ValueError` message. -/
def FaissIndex.add (idx : FaissIndex) (emb : EmbMatrix) (chunks : List DocumentChunk) :
    FaissIndex × Option String :=
  if emb.rows.length ≠ chunks.length then
    (idx, some ("Embeddings and chunks lengths do not match"))
  else if emb.ncols ≠ idx.dim then
    (idx, some ("Embedding dimension mismatch"))
  else
    ({ idx with
        vectors := idx.vectors ++ emb.rows,
        metadata := idx.metadata ++ chunks.map serialiseChunk }, none)

/-- The faiss binary artifact written by `faiss.write_index`: it stores
the index dimension `d` alongside the vectors (`load` reads `index.d`). -/
structure VecFile where
  d : Nat
  vectors : List (List Int)
deriving DecidableEq

/-- On-disk state of one storage directory: the `faiss.index` file and
the `metadata.jsonl` file, each possibly missing. -/
structure Storage where
  vecFile : Option VecFile
  metaFile : Option (List SerializedChunk)
deriving DecidableEq

/-- Model of `FaissDocumentIndex.persist` (`src/index/faiss_store.py`,
lines 36-41): write the faiss index and one metadata record per line in
insertion order (serialisation round-trip modelled as exact). -/
def FaissIndex.persist (idx : FaissIndex) : Storage :=
  { vecFile := some { d := idx.dim, vectors := idx.vectors },
    metaFile := some idx.metadata }

/-- Model of `FaissDocumentIndex.load` (`src/index/faiss_store.py`, lines 71-84):
fail with `FileNotFoundError` if either artifact is missing, else
reconstruct the index with `dim` taken from the stored `index.d`. -/
def FaissIndex.load (st : Storage) : Except String FaissIndex :=
  match st.vecFile, st.metaFile with
  | some vf, some mf => .ok { dim := vf.d, vectors := vf.vectors, metadata := mf }
  | _, _ => .error ("Index files not found. Have you run ingestion yet?")

/-- Inner product of two embedding rows (`IndexFlatIP` score). -/
def dot (a b : List Int) : Int := (List.zipWith (fun x y => x * y) a b).sum

/-- Model of `enumerate` the stored vectors with their offsets, scoring each
against the query row. -/
def scoredGo (q : List Int) : Nat → List (List Int) → List (Int × Nat)
  | _, [] => []
  | i, v :: vs => (dot q v, i) :: scoredGo q (i + 1) vs

/-- Ranking order of faiss top-k results: higher score first; ties are
returned in a deterministic (offset-ascending) order — faiss does not
specify tie order, and no claim in scope depends on it. -/
def candRel (a b : Int × Nat) : Prop := b.1 < a.1 ∨ (a.1 = b.1 ∧ a.2 ≤ b.2)

instance : DecidableRel candRel := fun a b =>
  inferInstanceAs (Decidable (b.1 < a.1 ∨ (a.1 = b.1 ∧ a.2 ≤ b.2)))

/-- One row of `faiss.IndexFlatIP.search`: the `top_k` best (score,
offset) pairs in descending-score order, padded with the `-1` "no
match" sentinel (modelled as `none`) when fewer than `top_k` vectors are
stored. -/
def searchRow (vectors : List (List Int)) (q : List Int) (k : Nat) :
    List (Option (Int × Nat)) :=
  let top := (List.insertionSort candRel (scoredGo q 0 vectors)).take k
  top.map some ++ List.replicate (k - top.length) none

/-- One result record of `FaissDocumentIndex.search`: the flattened
dictionary `{"query_index": …, "rank": …, "score": …, **chunk_meta}`. -/
structure SearchHit where
  queryIndex : Nat
  rank : Nat
  score : Int
  chunk : SerializedChunk
deriving DecidableEq, Inhabited

/-- The inner loop `for rank, chunk_idx in enumerate(neighbors)` of
`FaissDocumentIndex.search`: sentinel entries are skipped (the rank
counter still advances), and a metadata lookup out of range raises
`IndexError` (the whole call fails, discarding earlier results). -/
def collectGo (meta : List SerializedChunk) (qi : Nat) :
    Nat → List (Option (Int × Nat)) → Except String (List SearchHit)
  | _, [] => .ok []
  | rank, none :: rest => collectGo meta qi (rank + 1) rest
  | rank, some (sc, ci) :: rest =>
    match meta.get? ci with
    | none => .error ("list index out of range")
    | some m =>
      match collectGo meta qi (rank + 1) rest with
      | .error e => .error e
      | .ok hits => .ok ({ queryIndex := qi, rank := rank, score := sc, chunk := m } :: hits)

/-- The outer loop `for query_idx, neighbors in enumerate(indices)` of
`FaissDocumentIndex.search`, concatenating the per-query results. -/
def searchRows (meta : List SerializedChunk) (vectors : List (List Int)) (k : Nat) :
    Nat → List (List Int) → Except String (List SearchHit)
  | _, [] => .ok []
  | qi, q :: qs =>
    match collectGo meta qi 0 (searchRow vectors q k) with
    | .error e => .error e
    | .ok hits =>
      match searchRows meta vectors k (qi + 1) qs with
      | .error e => .error e
      | .ok rest => .ok (hits ++ rest)

/-- Model of `FaissDocumentIndex.search` (`src/index/faiss_store.py`,
lines 43-61): reject a query batch whose width differs from the index
dimension, then look up each neighbor's metadata by offset. -/
def FaissIndex.search (idx : FaissIndex) (queries : EmbMatrix) (k : Nat) :
    Except String (List SearchHit) :=
  if queries.ncols ≠ idx.dim then .error ("Query embedding dimension mismatch")
  else searchRows idx.metadata idx.vectors k 0 queries.rows

/-- A minimal chunk metadata record used by concrete witnesses. -/
def sampleMeta : ChunkMeta :=
  { chunkIndex := 0, sectionIndex := 0, source := s ("a.txt"), sectionName := s ("body"),
    sectionTitle := s ("Body"), pageStart := 1, pageEnd := 1, sectionType := s ("body"),
    isReference := false, title := none }

/-- A minimal chunk used by concrete witnesses. -/
def sampleChunk : DocumentChunk :=
  { documentId := s ("doc"), chunkId := s ("doc::sec::0::chunk::0"), text := s ("hello"),
    sectionName := s ("body"), sectionTitle := s ("Body"), pageStart := 1, pageEnd := 1,
    metadata := sampleMeta }

/-- A two-entry index of dimension 1 used by concrete witnesses. -/
def sampleIndex : FaissIndex :=
  { dim := 1, vectors := [[2], [3]],
    metadata := [serialiseChunk sampleChunk,
                 { serialiseChunk sampleChunk with chunkId := s ("doc::sec::0::chunk::1") }] }

/-- The `Document.metadata` mapping (`src/ingest/models.py` plus
`__post_init__`): display `source`, optional `title`, optional
`page_count`.  The constant `content_type` string is omitted — no claim
reads it. -/
structure DocMeta where
  source : List Char
  title : Option (List Char)
  pageCount : Option Nat
deriving DecidableEq

/-- Model of `Document` (`src/ingest/models.py`): the `uuid4` `document_id` is
injected as a parameter wherever a document is created. -/
structure Document where
  documentId : List Char
  text : List Char
  title : Option (List Char)
  sections : List DocumentSection
  meta : DocMeta
deriving DecidableEq

/-- Model of `DocumentLoader._load_text_document` (`src/ingest/document_loader.py`,
lines 34-36) followed by `Document.__post_init__`: raw text, **no
sections** (the loader never invokes the `SectionExtractor`), `source`
defaulted to the file name. -/
def loadTextDocument (docId fileName raw : List Char) : Document :=
  { documentId := docId, text := raw, title := none, sections := [],
    meta := { source := fileName, title := none, pageCount := none } }

/-- Decimal rendering of an index, as Python's f-string interpolation
does. -/
def natChars (n : Nat) : List Char := (Nat.repr n).data

/-- Model of `DocumentChunk.from_section` (`src/ingest/models.py`, lines 51-87).
The pipeline's `extra_metadata = dict(section.metadata)` update rewrites
`section_type` / `is_reference` with the very values already taken from
`section.metadata`, so the merge is already reflected here. -/
def DocumentChunk.fromSection (doc : Document) (sec : DocumentSection)
    (chunkText : List Char) (sectionIndex chunkIndex : Nat) : DocumentChunk :=
  { documentId := doc.documentId,
    chunkId := doc.documentId ++ s ("::sec::") ++ natChars sectionIndex ++
      s ("::chunk::") ++ natChars chunkIndex,
    text := chunkText,
    sectionName := sec.name,
    sectionTitle := sec.title,
    pageStart := sec.pageStart,
    pageEnd := sec.pageEnd,
    metadata :=
      { chunkIndex := chunkIndex,
        sectionIndex := sectionIndex,
        source := doc.meta.source,
        sectionName := sec.name,
        sectionTitle := sec.title,
        pageStart := sec.pageStart,
        pageEnd := sec.pageEnd,
        sectionType := sec.metadata.sectionType.getD sec.name,
        isReference := sec.metadata.isReference,
        title := doc.meta.title } }

/-- The inner `for chunk_index, text in enumerate(chunk_texts)` loop of
`IngestionPipeline._chunk_documents`: blank chunks are skipped but still
consume a chunk index. -/
def chunkTexts (doc : Document) (sec : DocumentSection) (sectionIndex : Nat) :
    Nat → List (List Char) → List DocumentChunk
  | _, [] => []
  | j, t :: ts =>
    (if pyStrip t = [] then [] else [DocumentChunk.fromSection doc sec t sectionIndex j]) ++
      chunkTexts doc sec sectionIndex (j + 1) ts

/-- The `for section_index, section in enumerate(sections)` loop of
`IngestionPipeline._chunk_documents`, splitting each section with the
chunker. -/
def chunkSections (chunker : TextChunker) (doc : Document) :
    Nat → List DocumentSection → List DocumentChunk
  | _, [] => []
  | i, sec :: rest =>
    chunkTexts doc sec i 0 (chunker.split sec.text) ++ chunkSections chunker doc (i + 1) rest

/-- Model of `IngestionPipeline._chunk_documents` (`src/ingest/pipeline.py`,
lines 57-92): documents without sections — which is every document the
`DocumentLoader` produces — get one fallback `body` section spanning the
whole text, with `page_end` from `page_count` when present (else 1). -/
def chunkDocuments : TextChunker → List Document → List DocumentChunk
  | _, [] => []
  | chunker, doc :: rest =>
    let sections :=
      if doc.sections = [] then
        [{ name := s ("body"), title := doc.title.getD (s ("Body")), text := doc.text,
           pageStart := 1, pageEnd := doc.meta.pageCount.getD 1,
           metadata := { sectionType := some (s ("body")), isReference := false } }]
      else doc.sections
    chunkSections chunker doc 0 sections ++ chunkDocuments chunker rest

/-- The pipeline-visible world: the in-memory index and the on-disk
artifacts of its storage directory. -/
structure PipelineState where
  index : FaissIndex
  persisted : Storage
deriving DecidableEq

/-- Model of `IngestionPipeline.ingest_paths` (`src/ingest/pipeline.py`,
lines 33-45) after document loading, with the embedding client as an
explicit fallible function: no chunks → warn and return; embedding
failure propagates before any index mutation; a successful `add` is
followed by `persist`. -/
def ingestDocs (chunker : TextChunker)
    (embed : List (List Char) → Except String EmbMatrix)
    (st : PipelineState) (docs : List Document) : PipelineState × Option String :=
  let chunks := chunkDocuments chunker docs
  if chunks = [] then (st, none)
  else
    match embed (chunks.map DocumentChunk.text) with
    | .error e => (st, some e)
    | .ok embs =>
      match FaissIndex.add st.index embs chunks with
      | (idx', none) => ({ index := idx', persisted := idx'.persist }, none)
      | (_, some e) => (st, some e)

/-- An empty text document (no chunk survives chunking). -/
def docEmpty : Document := loadTextDocument (s ("doc")) (s ("empty.txt")) (s (""))

/-- A two-token text document (chunking yields one chunk). -/
def docHello : Document := loadTextDocument (s ("doc")) (s ("a.txt")) (s ("hello world"))

/-- An initial pipeline world: empty dimension-2 index, nothing
persisted yet. -/
def st0 : PipelineState :=
  { index := { dim := 2, vectors := [], metadata := [] },
    persisted := { vecFile := none, metaFile := none } }

/-- A line of `n` whitespace-separated one-character tokens. -/
def c1TokensLine (n : Nat) : List Char := List.intercalate [' '] (List.replicate n ['a'])

/-- The two-section scenario document of the spec: a heading
`Introduction` followed by 300 tokens, then a heading `References`
followed by 50 tokens. -/
def c1Raw : List Char :=
  s ("Introduction") ++ '\n' :: c1TokensLine 300 ++ '\n' :: s ("References") ++ '\n' :: c1TokensLine 50

/-- The scenario document as `ingest_paths` actually loads it: via
`DocumentLoader`, which performs no section extraction. -/
def c1Doc : Document := loadTextDocument (s ("doc")) (s ("paper.txt")) c1Raw

/-- Model of `SectionExtractor._extract_from_text` assembled into a full
`Document` (`src/ingest/sections.py`, lines 298-308) — the extractor
exists in the repository but is never invoked by the pipeline. -/
def extractFromTextDoc (docId fileName raw : List Char) : Document :=
  let secs := extractFromTextSections raw
  let title := inferTitleFromText (pySplitlines raw)
  { documentId := docId,
    text := List.intercalate (s ("\n\n")) (secs.map DocumentSection.text),
    title := title, sections := secs,
    meta := { source := fileName, title := title, pageCount := none } }

/-- The scenario document as the spec intends it to be loaded: with the
Section Extractor applied. -/
def extractedC1Doc : Document := extractFromTextDoc (s ("doc")) (s ("paper.txt")) c1Raw

/-- The metadata mapping of a retrieval record: the chunk's stored
metadata augmented with `rank` and the originating query position
(`query_index`). -/
structure RetMeta where
  base : ChunkMeta
  rank : Nat
  queryIndex : Nat
deriving DecidableEq, Inhabited

/-- Model of `RetrievedChunk` (`src/retriever/faiss_retriever.py`, lines 16-22). -/
structure RetrievedChunk where
  chunkId : List Char
  documentId : List Char
  text : List Char
  score : Int
  metadata : RetMeta
deriving DecidableEq, Inhabited

/-- Model of `FaissRetriever._to_chunk` (`src/retriever/faiss_retriever.py`,
lines 55-74).  The `section_name` / `section_title` / `page_start` /
`page_end` conditionals never fire: a search result dictionary carries
only the serialised-chunk keys, none of those four. -/
def toChunk (hit : SearchHit) : RetrievedChunk :=
  { chunkId := hit.chunk.chunkId, documentId := hit.chunk.documentId,
    text := hit.chunk.text, score := hit.score,
    metadata := { base := hit.chunk.metadata, rank := hit.rank, queryIndex := hit.queryIndex } }

/-- Model of `FaissRetriever` instance state: the storage directory's contents,
the configured default `top_k`, and the lazily-populated `_index`
cache. -/
structure FaissRetriever where
  storage : Storage
  topK : Nat
  cachedIndex : Option FaissIndex
deriving DecidableEq

/-- Model of `FaissRetriever._load_index` (`src/retriever/faiss_retriever.py`,
lines 40-44): return the cached index, or load and cache it. -/
def loadIndexR (r : FaissRetriever) : Except String (FaissIndex × FaissRetriever) :=
  match r.cachedIndex with
  | some i => .ok (i, r)
  | none =>
    match FaissIndex.load r.storage with
    | .ok i => .ok (i, { r with cachedIndex := some i })
    | .error e => .error e

/-- Python's `top_k or self.top_k`: `None` — and also the falsy `0` —
fall back to the configured default. -/
def effTopK (k0 : Nat) : Option Nat → Nat
  | some n => if n = 0 then k0 else n
  | none => k0

/-- Model of `FaissRetriever.retrieve` (`src/retriever/faiss_retriever.py`,
lines 46-53): reject blank queries, load the index (caching it even if
the later search fails), embed the query as a single-row batch, search,
and map the hits. -/
def retrieve (embedQ : List Char → List Int) (r : FaissRetriever) (query : List Char)
    (topKArg : Option Nat) : FaissRetriever × Except String (List RetrievedChunk) :=
  if pyStrip query = [] then (r, .error ("Query must not be empty"))
  else
    match loadIndexR r with
    | .error e => (r, .error e)
    | .ok (idx, r') =>
      let qe := embedQ query
      match FaissIndex.search idx { rows := [qe], ncols := qe.length }
          (effTopK r.topK topKArg) with
      | .error e => (r', .error e)
      | .ok hits => (r', .ok (hits.map toChunk))

/-- A one-entry index of dimension 2, and its persisted storage, for the
C8 counterexample and witness. -/
def cexIndex : FaissIndex :=
  { dim := 2, vectors := [[1, 0]], metadata := [serialiseChunk sampleChunk] }

/-- The persisted storage of `cexIndex` (a loadable index). -/
def cexStorage : Storage := FaissIndex.persist cexIndex

/-- Ceiling-division recurrence used to count window starts:
`range(0, n, step)` has `⌈n/step⌉` elements, and removing the first
`step` tokens removes exactly one window. -/
theorem ceil_div_step_rec (n step : Nat) (hn : 1 ≤ n) (hstep : 1 ≤ step) :
    (n + step - 1) / step = (n - step + step - 1) / step + 1 := by
  rcases le_or_lt n step with h | h
  · have h0 : n - step = 0 := by omega
    rw [h0]
    have h1 : (0 + step - 1) / step = 0 := Nat.div_eq_of_lt (by omega)
    rw [h1]
    exact Nat.div_eq_of_lt_le (by omega) (by omega)
  · have h2 : n + step - 1 = (n - step + step - 1) + step := by omega
    rw [h2, Nat.add_div_right _ (by omega)]

/-- The window loop on an empty token list emits nothing. -/
theorem slideGo_nil (size step fuel : Nat) : slideGo size step fuel ([] : List α) = [] := by
  cases fuel <;> rfl

/-- The window loop emits exactly `⌈tokens/step⌉` windows: one per start
in `range(0, len(tokens), step)`, none of them empty when the window
size is positive. -/
theorem slideGo_length (size step : Nat) (hsize : 1 ≤ size) (hstep : 1 ≤ step) :
    ∀ (fuel : Nat) (xs : List α), xs.length ≤ fuel →
      (slideGo size step fuel xs).length = (xs.length + step - 1) / step := by
  intro fuel
  induction fuel with
  | zero =>
    intro xs hxs
    have hnil : xs = [] := List.eq_nil_of_length_eq_zero (by omega)
    subst hnil
    rw [slideGo_nil]
    simp [Nat.div_eq_of_lt (show step - 1 < step by omega)]
  | succ f ih =>
    intro xs hxs
    cases xs with
    | nil =>
      rw [slideGo_nil]
      simp [Nat.div_eq_of_lt (show step - 1 < step by omega)]
    | cons x rest =>
      obtain ⟨size', rfl⟩ : ∃ k, size = k + 1 := ⟨size - 1, by omega⟩
      have hw : ((x :: rest).take (size' + 1)).isEmpty = false := by
        simp [List.take_succ_cons]
      have hlen : ((x :: rest).drop step).length ≤ f := by
        simp only [List.length_drop, List.length_cons]
        simp only [List.length_cons] at hxs
        omega
      have hrec := ih ((x :: rest).drop step) hlen
      simp only [slideGo, hw, Bool.false_eq_true, if_false, List.length_cons, hrec,
        List.length_drop]
      rw [ceil_div_step_rec (rest.length + 1) step (by omega) hstep]

/-- Every character emitted by the space/tab collapse of an all-whitespace
string is whitespace. -/
theorem collapseSpaceTabGo_space (l : List Char) (h : ∀ c ∈ l, pyIsSpace c = true) :
    ∀ b, ∀ c ∈ collapseSpaceTabGo b l, pyIsSpace c = true := by
  induction l with
  | nil => intro b c hc; simp [collapseSpaceTabGo] at hc
  | cons a as ih =>
    intro b c hc
    have ha : pyIsSpace a = true := h a (by simp)
    have has : ∀ c ∈ as, pyIsSpace c = true := fun c hc => h c (by simp [hc])
    simp only [collapseSpaceTabGo] at hc
    by_cases hcase : (a = ' ' || a = '\t') = true
    · rw [if_pos hcase] at hc
      by_cases hb : b = true
      · subst hb; rw [if_pos rfl] at hc; exact ih has true c hc
      · have hb' : b = false := by revert hb; cases b <;> simp
        subst hb'
        rw [if_neg (by simp)] at hc
        rcases List.mem_cons.mp hc with hc | hc
        · subst hc; rfl
        · exact ih has true c hc
    · rw [if_neg hcase] at hc
      rcases List.mem_cons.mp hc with hc | hc
      · subst hc; exact ha
      · exact ih has false c hc

/-- Characters of `nlEmit` are newlines, hence whitespace. -/
theorem nlEmit_space (n : Nat) : ∀ c ∈ nlEmit n, pyIsSpace c = true := by
  intro c hc
  unfold nlEmit at hc
  by_cases h3 : 3 ≤ n
  · rw [if_pos h3] at hc
    simp at hc
    subst hc; rfl
  · rw [if_neg h3] at hc
    have := List.eq_of_mem_replicate hc
    subst this; rfl

/-- The newline collapse of an all-whitespace string is all-whitespace. -/
theorem collapseNLGo_space (l : List Char) (h : ∀ c ∈ l, pyIsSpace c = true) :
    ∀ c ∈ (collapseNLGo l).2, pyIsSpace c = true := by
  induction l with
  | nil => intro c hc; simp [collapseNLGo] at hc
  | cons a as ih =>
    intro c hc
    have ha : pyIsSpace a = true := h a (by simp)
    have has : ∀ c ∈ as, pyIsSpace c = true := fun c hc => h c (by simp [hc])
    simp only [collapseNLGo] at hc
    by_cases hcase : (a = '\n')
    · rw [if_pos hcase] at hc
      exact ih has c hc
    · rw [if_neg hcase] at hc
      rcases List.mem_cons.mp hc with hc | hc
      · subst hc; exact ha
      · rcases List.mem_append.mp hc with hc | hc
        · exact nlEmit_space _ c hc
        · exact ih has c hc

/-- Stripping an all-whitespace string yields the empty string. -/
theorem pyStrip_allSpace (l : List Char) (h : ∀ c ∈ l, pyIsSpace c = true) :
    pyStrip l = [] := by
  unfold pyStrip
  have h1 : l.dropWhile pyIsSpace = [] := List.dropWhile_eq_nil_iff.mpr h
  rw [h1]
  rfl

/-- Whitespace-only input normalises to the empty string. -/
theorem normaliseWhitespace_allSpace (l : List Char) (h : ∀ c ∈ l, pyIsSpace c = true) :
    normaliseWhitespace l = [] := by
  unfold normaliseWhitespace
  apply pyStrip_allSpace
  intro c hc
  unfold collapseNewlines at hc
  rcases List.mem_append.mp hc with hc | hc
  · exact nlEmit_space _ c hc
  · exact collapseNLGo_space _ (collapseSpaceTabGo_space l h false) c hc

/-- C3 (corrected): for every valid chunker configuration
(`0 < window_size`, `overlap < window_size`), whitespace-only input
yields no chunks, and when the normalised text has at least one token
`split` produces exactly `⌈token_count / (window_size - overlap)⌉`
chunks — one per start of `range(0, token_count, step)` — not the
spec's `⌈max(0, token_count - overlap) / (window_size - overlap)⌉`. -/
theorem split_chunk_count (size ov : Nat) (text : List Char)
    (hvalid : TextChunker.valid ⟨size, ov⟩) :
    ((∀ c ∈ text, pyIsSpace c = true) → TextChunker.split ⟨size, ov⟩ text = []) ∧
    (pySplit (normaliseWhitespace text) ≠ [] →
      (TextChunker.split ⟨size, ov⟩ text).length =
        ((pySplit (normaliseWhitespace text)).length + (size - ov) - 1) / (size - ov)) := by
  have hsize : 0 < size := hvalid.1
  have hov : ov < size := hvalid.2
  constructor
  · intro hws
    have hnorm : normaliseWhitespace text = [] := normaliseWhitespace_allSpace text hws
    simp [TextChunker.split, hnorm]
  · intro htok
    have hcol : normaliseWhitespace text ≠ [] := by
      intro h
      apply htok
      rw [h]
      rfl
    have hstep : (size : Nat) - ov ≠ 0 := by omega
    simp only [TextChunker.split, if_neg hcol, if_neg htok, List.length_map, slideWindows,
      if_neg hstep]
    exact slideGo_length size (size - ov) (by omega) (by omega) _ _ (le_refl _)

/-- C3 counterexample: with `window_size = 100`, `overlap = 20` the
one-token input `"hello"` yields one chunk, while the spec's formula
`ceil(max(0, 1 - 20) / 80)` predicts zero chunks. -/
theorem split_chunk_count_spec_false :
    (TextChunker.split ⟨100, 20⟩ (s ("hello"))).length = 1 ∧
    specChunkCount 100 20 (pySplit (normaliseWhitespace (s ("hello")))).length = 0 := by
  constructor <;> decide

/-- Witness for C3: the two-token input `"hello world"` with
`window_size = 100`, `overlap = 20` produces `⌈2 / 80⌉ = 1` chunk. -/
theorem split_chunk_count_witness :
    (TextChunker.split ⟨100, 20⟩ (s ("hello world"))).length = (2 + (100 - 20) - 1) / (100 - 20) := by
  have h := (split_chunk_count 100 20 (s ("hello world")) (by constructor <;> decide)).2 (by decide)
  have ht : (pySplit (normaliseWhitespace (s ("hello world")))).length = 2 := by decide
  rw [ht] at h
  exact h

/-- Model of `segLoop` unfolding on nil. -/
theorem segLoop_nil (P : SegParams α) (st : SegState) : segLoop P st [] = st := rfl

/-- Model of `segLoop` unfolding on cons. -/
theorem segLoop_cons (P : SegParams α) (st : SegState) (a : α) (rest : List α) :
    segLoop P st (a :: rest) = segLoop P (segStep P st a) rest := rfl

/-- Flushing only ever appends to the section list. -/
theorem flushSection_sections_mono (st : SegState) (e : Nat) :
    ∃ d, (flushSection st e).sections = st.sections ++ d := by
  unfold flushSection
  by_cases hc : pyStrip (List.intercalate ['\n'] st.currentLines) = []
  · exact ⟨[], by rw [if_pos hc]; simp⟩
  · exact ⟨_, by rw [if_neg hc]⟩

/-- Membership in the `head?` of a singleton list. -/
theorem head?_singleton_mem {β : Type} {z y : β} (h : y ∈ [z].head?) : y = z := by
  have := by simpa using h
  exact this.symm

/-- Flushing preserves the range discipline: when the accumulated
content is non-empty it appends one section spanning
`[sectionStart, e]`, which extends the chain because every previously
emitted section ends at or before `sectionStart ≤ e`. -/
theorem flushSection_inv (st : SegState) (e : Nat)
    (h1 : RangesOk st.sections)
    (h2 : ∀ x ∈ st.sections, x.pageEnd ≤ st.sectionStart)
    (h3 : st.sectionStart ≤ e) :
    RangesOk (flushSection st e).sections ∧
      ∀ x ∈ (flushSection st e).sections, x.pageEnd ≤ e := by
  obtain ⟨h1a, h1b⟩ := h1
  unfold flushSection
  by_cases hc : pyStrip (List.intercalate ['\n'] st.currentLines) = []
  · rw [if_pos hc]
    exact ⟨⟨h1a, h1b⟩, fun x hx => le_trans (h2 x hx) h3⟩
  · rw [if_neg hc]
    dsimp only
    refine ⟨⟨?_, ?_⟩, ?_⟩
    · intro x hx
      rcases List.mem_append.mp hx with hx | hx
      · exact h1a x hx
      · have hx' := List.mem_singleton.mp hx
        subst hx'
        exact h3
    · refine h1b.append (List.chain'_singleton _) ?_
      intro x hxl y hy
      have hy' := head?_singleton_mem hy
      subst hy'
      obtain ⟨hne, hx⟩ := List.mem_getLast?_eq_getLast hxl
      have hmem : x ∈ st.sections := by rw [hx]; exact List.getLast_mem hne
      exact h2 x hmem
    · intro x hx
      rcases List.mem_append.mp hx with hx | hx
      · exact le_trans (h2 x hx) h3
      · have hx' := List.mem_singleton.mp hx
        subst hx'
        exact Nat.le_refl e

/-- Field equations of a heading step. -/
theorem segStep_head_fields (P : SegParams α) (st : SegState) (a : α) (hh : P.isHead a = true) :
    (segStep P st a).sections =
      (flushSection st (if st.sectionStart < P.pg a then P.pg a - 1 else P.pg a)).sections ∧
    (segStep P st a).sectionStart = P.pg a ∧
    (segStep P st a).currentLines = [P.headTxt a] ∧
    (segStep P st a).currentName = (normaliseHeading (P.headTxt a)).1 ∧
    (segStep P st a).currentTitle = (normaliseHeading (P.headTxt a)).2 := by
  refine ⟨?_, ?_, ?_, ?_, ?_⟩ <;> simp [segStep, hh]

/-- Field equations of a body step. -/
theorem segStep_body_fields (P : SegParams α) (st : SegState) (a : α) (hh : P.isHead a = false) :
    (segStep P st a).sections = st.sections ∧
    (segStep P st a).sectionStart = st.sectionStart ∧
    (segStep P st a).currentLines = st.currentLines ++ [P.bodyTxt a] ∧
    (segStep P st a).currentName = st.currentName ∧
    (segStep P st a).currentTitle = st.currentTitle ∧
    (segStep P st a).currentMeta = st.currentMeta := by
  refine ⟨?_, ?_, ?_, ?_, ?_, ?_⟩ <;> simp [segStep, hh]

/-- Invariant of the segmentation loop: starting from a state whose
emitted sections satisfy the range discipline, all end at or before the
current `sectionStart`, and whose `sectionStart` is bounded by every
remaining line's page, processing lines with non-decreasing pages
bounded by `Pg` preserves all three facts. -/
theorem segLoop_inv (P : SegParams α) :
    ∀ (rem : List α) (st : SegState) (Pg : Nat),
      RangesOk st.sections →
      (∀ x ∈ st.sections, x.pageEnd ≤ st.sectionStart) →
      (∀ a ∈ rem, st.sectionStart ≤ P.pg a) →
      List.Pairwise (fun a b => P.pg a ≤ P.pg b) rem →
      st.sectionStart ≤ Pg →
      (∀ a ∈ rem, P.pg a ≤ Pg) →
      RangesOk (segLoop P st rem).sections ∧
        (∀ x ∈ (segLoop P st rem).sections, x.pageEnd ≤ (segLoop P st rem).sectionStart) ∧
        (segLoop P st rem).sectionStart ≤ Pg := by
  intro rem
  induction rem with
  | nil =>
    intro st Pg h1 h2 _ _ h5 _
    rw [segLoop_nil]
    exact ⟨h1, h2, h5⟩
  | cons a rest ih =>
    intro st Pg h1 h2 h3 h4 h5 h6
    rw [segLoop_cons]
    have hpa : st.sectionStart ≤ P.pg a := h3 a (List.mem_cons_self a rest)
    have hpaPg : P.pg a ≤ Pg := h6 a (List.mem_cons_self a rest)
    have hrest_ge : ∀ b ∈ rest, P.pg a ≤ P.pg b := (List.pairwise_cons.mp h4).1
    have h4' := (List.pairwise_cons.mp h4).2
    by_cases hh : P.isHead a = true
    · obtain ⟨hsec, hstart, _, _, _⟩ := segStep_head_fields P st a hh
      have hse : st.sectionStart ≤ (if st.sectionStart < P.pg a then P.pg a - 1 else P.pg a) := by
        split <;> omega
      have hep : (if st.sectionStart < P.pg a then P.pg a - 1 else P.pg a) ≤ P.pg a := by
        split <;> omega
      obtain ⟨hf1, hf2⟩ := flushSection_inv st _ h1 h2 hse
      apply ih (segStep P st a) Pg
      · rw [hsec]; exact hf1
      · intro x hx
        rw [hsec] at hx
        rw [hstart]
        exact le_trans (hf2 x hx) hep
      · intro b hb
        rw [hstart]
        exact hrest_ge b hb
      · exact h4'
      · rw [hstart]; exact hpaPg
      · intro b hb; exact h6 b (List.mem_cons_of_mem a hb)
    · have hh' : P.isHead a = false := by revert hh; cases P.isHead a <;> simp
      obtain ⟨hsec, hstart, _, _, _, _⟩ := segStep_body_fields P st a hh'
      apply ih (segStep P st a) Pg
      · rw [hsec]; exact h1
      · intro x hx; rw [hsec] at hx; rw [hstart]; exact h2 x hx
      · intro b hb; rw [hstart]; exact h3 b (List.mem_cons_of_mem a hb)
      · exact h4'
      · rw [hstart]; exact h5
      · intro b hb; exact h6 b (List.mem_cons_of_mem a hb)

/-- In a page-sorted line list, every page is bounded by the last
line's page (the page used by the final flush). -/
theorem pages_le_getLast (lines : List LineInfo)
    (h : List.Pairwise (fun a b => a.page ≤ b.page) lines) (hne : lines ≠ []) :
    ∀ a ∈ lines, a.page ≤ (lines.getLast hne).page := by
  induction lines with
  | nil => intro a ha; exact absurd ha (by simp)
  | cons x rest ih =>
    intro a ha
    cases rest with
    | nil =>
      have hax : a = x := by simpa using ha
      subst hax
      exact Nat.le_refl _
    | cons y t =>
      rw [List.getLast_cons (by simp : (y :: t) ≠ [])]
      rcases List.mem_cons.mp ha with ha | ha
      · subst ha
        exact (List.pairwise_cons.mp h).1 _ (List.getLast_mem (by simp))
      · exact ih (List.pairwise_cons.mp h).2 (by simp) a ha

/-- Model of `enumerate(lines, start=i)` indices are in `[i, i + len)`. -/
theorem enumFrom_fst_bounds (l : List α) :
    ∀ i, ∀ p ∈ enumFrom i l, i ≤ p.1 ∧ p.1 < i + l.length := by
  induction l with
  | nil => intro i p hp; simp [enumFrom] at hp
  | cons a rest ih =>
    intro i p hp
    rcases List.mem_cons.mp hp with hp | hp
    · subst hp
      exact ⟨Nat.le_refl i, by simp⟩
    · obtain ⟨hp1, hp2⟩ := ih (i + 1) p hp
      exact ⟨by omega, by simp only [List.length_cons]; omega⟩

/-- Model of `enumerate` indices are non-decreasing. -/
theorem enumFrom_pairwise (l : List α) :
    ∀ i, List.Pairwise (fun p q : Nat × α => p.1 ≤ q.1) (enumFrom i l) := by
  induction l with
  | nil => intro i; exact List.Pairwise.nil
  | cons a rest ih =>
    intro i
    refine List.pairwise_cons.mpr ⟨?_, ih (i + 1)⟩
    intro q hq
    have := (enumFrom_fst_bounds rest (i + 1) q hq).1
    omega

/-- C4 counterexample: on `cexPdfLines` the Section Extractor emits two
sections whose inclusive page ranges are both `[1, 1]` — they overlap
(they share page 1), refuting the claim that produced page ranges are
non-overlapping. -/
theorem sections_nonoverlap_false :
    segmentIntoSections cexPdfLines =
      [{ name := s ("introduction"), title := s ("Introduction"),
         text := s ("Introduction") ++ '\n' :: s ("some body text here"),
         pageStart := 1, pageEnd := 1,
         metadata := { sectionType := some (s ("introduction")), isReference := false } },
       { name := s ("method"), title := s ("Methods"),
         text := s ("Methods") ++ '\n' :: s ("more body text"),
         pageStart := 1, pageEnd := 1,
         metadata := { sectionType := some (s ("method")), isReference := false } }] ∧
    ¬ List.Chain' (fun a b => a.pageEnd < b.pageStart) (segmentIntoSections cexPdfLines) := by
  have hfull : segmentIntoSections cexPdfLines =
      [{ name := s ("introduction"), title := s ("Introduction"),
         text := s ("Introduction") ++ '\n' :: s ("some body text here"),
         pageStart := 1, pageEnd := 1,
         metadata := { sectionType := some (s ("introduction")), isReference := false } },
       { name := s ("method"), title := s ("Methods"),
         text := s ("Methods") ++ '\n' :: s ("more body text"),
         pageStart := 1, pageEnd := 1,
         metadata := { sectionType := some (s ("method")), isReference := false } }] := by decide
  refine ⟨hfull, ?_⟩
  rw [hfull]
  intro hch
  exact absurd (List.chain'_cons.mp hch).1 (by decide)

/-- C4 (corrected): sections are produced in document order with a
well-formed, monotone page discipline — each emitted section satisfies
`page_start ≤ page_end` and each section starts no earlier than its
predecessor ends (`RangesOk`); ranges may share exactly the boundary
page when a heading falls on the page where the current section started
(so "non-overlapping" weakens to `pageEnd ≤ next pageStart`).  For PDF
input this assumes the extracted lines carry non-decreasing page
numbers, as produced by the page loop of `_extract_from_pdf`.  If
segmentation emits no section, both extraction paths fall back to
exactly one `body` section spanning the whole document and full page
range. -/
theorem sections_ranges_ordered :
    (∀ lines : List LineInfo,
        List.Pairwise (fun a b => a.page ≤ b.page) lines →
        RangesOk (segmentIntoSections lines)) ∧
    (∀ raw : List Char, RangesOk (textSegFinal raw).sections) ∧
    (∀ lines pc, segmentIntoSections lines = [] →
        pdfSectionsOrFallback lines pc =
          [{ name := s ("body"), title := s ("Body"),
             text := List.intercalate ['\n'] (lines.map LineInfo.text),
             pageStart := 1, pageEnd := pc,
             metadata := { sectionType := none, isReference := false } }]) ∧
    (∀ raw, (textSegFinal raw).sections = [] →
        extractFromTextSections raw =
          [{ name := s ("body"), title := (textSegFinal raw).currentTitle, text := raw,
             pageStart := 1, pageEnd := (pySplitlines raw).length,
             metadata := { sectionType := some (s ("body")), isReference := false } }]) := by
  have hempty : RangesOk [] := ⟨fun x hx => absurd hx (by simp), List.chain'_nil⟩
  refine ⟨?_, ?_, ?_, ?_⟩
  · intro lines hpw
    cases lines with
    | nil => exact hempty
    | cons l0 rest =>
      have hne : (l0 :: rest) ≠ [] := List.cons_ne_nil l0 rest
      have hlastmem : ∀ a ∈ l0 :: rest, a.page ≤ ((l0 :: rest).getLast hne).page :=
        pages_le_getLast _ hpw hne
      have hstart : ∀ a ∈ l0 :: rest, l0.page ≤ a.page := by
        intro a ha
        rcases List.mem_cons.mp ha with ha | ha
        · subst ha; exact Nat.le_refl _
        · exact (List.pairwise_cons.mp hpw).1 a ha
      obtain ⟨ho1, ho2, ho3⟩ :=
        segLoop_inv (pdfSegParams (avgFont (l0 :: rest))) (l0 :: rest)
          { sections := [], currentLines := [],
            currentName := s ("front_matter"), currentTitle := s ("Front Matter"),
            currentMeta := { sectionType := some (s ("front_matter")), isReference := false },
            sectionStart := l0.page }
          ((l0 :: rest).getLast hne).page
          hempty (by intro x hx; exact absurd hx (by simp))
          hstart hpw (hlastmem l0 (by simp)) hlastmem
      exact (flushSection_inv _ _ ho1 ho2 ho3).1
  · intro raw
    by_cases hl : pySplitlines raw = []
    · have hsec : (textSegFinal raw).sections = [] := by
        unfold textSegFinal
        rw [hl]
        rfl
      rw [hsec]
      exact hempty
    · have hlen : 1 ≤ (pySplitlines raw).length := by
        cases hx : pySplitlines raw with
        | nil => exact absurd hx hl
        | cons a t => simp
      have hbounds := enumFrom_fst_bounds (pySplitlines raw) 1
      obtain ⟨ho1, ho2, ho3⟩ :=
        segLoop_inv textSegParams (enumFrom 1 (pySplitlines raw))
          { sections := [], currentLines := [],
            currentName := s ("body"),
            currentTitle := (inferTitleFromText (pySplitlines raw)).getD (s ("Body")),
            currentMeta := { sectionType := some (s ("body")), isReference := false },
            sectionStart := 1 }
          (pySplitlines raw).length
          hempty (by intro x hx; exact absurd hx (by simp))
          (fun p hp => (hbounds p hp).1)
          (enumFrom_pairwise _ 1)
          hlen
          (fun p hp => by
            show p.1 ≤ (pySplitlines raw).length
            have := (hbounds p hp).2
            omega)
      exact (flushSection_inv _ _ ho1 ho2 ho3).1
  · intro lines pc h
    simp [pdfSectionsOrFallback, h]
  · intro raw h
    simp [extractFromTextSections, h]

/-- Witness for C4: the pages of `cexPdfLines` are sorted, and the
segmentation output satisfies the corrected range discipline. -/
theorem sections_ranges_ordered_witness :
    List.Pairwise (fun a b : LineInfo => a.page ≤ b.page) cexPdfLines ∧
    RangesOk (segmentIntoSections cexPdfLines) :=
  ⟨by decide, sections_ranges_ordered.1 cexPdfLines (by decide)⟩

/-- C5 (confirmed): in text mode the all-caps line `"REFERENCES"` is
classified as a heading, and the section it opens is slugged
`references` with `is_reference=True` in its metadata; the 105-character
mixed-case sentence about references is not classified as a heading
(its keyword regexes are anchored at the start of the line). -/
theorem references_heading_classified :
    lineIsSectionHeading (s ("REFERENCES")) = true ∧
    extractFromTextSections (s ("REFERENCES\nSmith, J. 2020.")) =
      [{ name := s ("references"), title := s ("REFERENCES"),
         text := s ("REFERENCES") ++ '\n' :: s ("Smith, J. 2020."),
         pageStart := 1, pageEnd := 2,
         metadata := { sectionType := some (s ("references")), isReference := true } }] ∧
    lineIsSectionHeading
      (s ("This is a long sentence discussing references to prior work in the literature review section of the paper"))
      = false := by
  refine ⟨by decide, by decide, by decide⟩

/-- If `dropWhile` keeps a non-empty list unchanged, its head fails the
predicate. -/
theorem dropWhile_eq_self_head (p : Char → Bool) (c : Char) (cs : List Char)
    (h : (c :: cs).dropWhile p = c :: cs) : p c = false := by
  by_cases hp : p c = true
  · rw [List.dropWhile_cons, if_pos hp] at h
    have hlen := (List.dropWhile_sublist (l := cs) p).length_le
    rw [h] at hlen
    simp at hlen
  · revert hp; cases p c <;> simp

/-- The head of a `dropWhile` result fails the predicate. -/
theorem dropWhile_head_false (p : Char → Bool) (v : List Char) (d : Char) (ds : List Char)
    (h : v.dropWhile p = d :: ds) : p d = false := by
  induction v with
  | nil => simp at h
  | cons a v' ih =>
    rw [List.dropWhile_cons] at h
    by_cases ha : p a = true
    · rw [if_pos ha] at h
      exact ih h
    · rw [if_neg ha] at h
      have had : a = d := by injection h
      subst had
      revert ha; cases p a <;> simp

/-- Model of `dropWhile` over `u ++ c :: e` with `c` failing the predicate stops
no later than `c`: the result keeps the `c :: e` tail intact. -/
theorem append_dropWhile_of_head_false (p : Char → Bool) (u : List Char) (c : Char)
    (e : List Char) (hc : p c = false) :
    ∃ w, (u ++ c :: e).dropWhile p = w ++ c :: e := by
  induction u with
  | nil =>
    refine ⟨[], ?_⟩
    rw [List.nil_append, List.dropWhile_cons, if_neg (by simp [hc])]
  | cons a u' ih =>
    by_cases ha : p a = true
    · obtain ⟨w, hw⟩ := ih
      exact ⟨w, by rw [List.cons_append, List.dropWhile_cons, if_pos ha]; exact hw⟩
    · refine ⟨a :: u', ?_⟩
      rw [List.cons_append, List.dropWhile_cons, if_neg ha]

/-- Stripping a string that begins with an already-stripped non-empty
block `x` keeps `x` as a prefix of the result. -/
theorem strip_append_of_clean (x r : List Char) (hx : x ≠ [])
    (h1 : x.dropWhile pyIsSpace = x) (h2 : x.reverse.dropWhile pyIsSpace = x.reverse) :
    ∃ t, pyStrip (x ++ r) = x ++ t := by
  obtain ⟨c, cs, rfl⟩ : ∃ c cs, x = c :: cs := by
    cases x with
    | nil => exact absurd rfl hx
    | cons c cs => exact ⟨c, cs, rfl⟩
  have hc : pyIsSpace c = false := dropWhile_eq_self_head _ _ _ h1
  have hdw : ((c :: cs) ++ r).dropWhile pyIsSpace = (c :: cs) ++ r := by
    rw [List.cons_append, List.dropWhile_cons, if_neg (by simp [hc])]
  unfold pyStrip dropTrailing
  rw [hdw, List.reverse_append]
  obtain ⟨d, ds, hds⟩ : ∃ d ds, (c :: cs).reverse = d :: ds := by
    cases hrv : (c :: cs).reverse with
    | nil =>
      have : (c :: cs).reverse ≠ [] := by simp
      exact absurd hrv this
    | cons d ds => exact ⟨d, ds, rfl⟩
  have hd : pyIsSpace d = false := by
    apply dropWhile_eq_self_head pyIsSpace d ds
    rw [← hds]
    exact h2
  rw [hds]
  obtain ⟨w, hw⟩ := append_dropWhile_of_head_false pyIsSpace r.reverse d ds hd
  rw [hw]
  refine ⟨w.reverse, ?_⟩
  rw [List.reverse_append, ← hds, List.reverse_reverse]

/-- Model of `"\n".join(x :: xs)` begins with `x`. -/
theorem intercalate_cons_head (sep : List Char) (x : List Char) (xs : List (List Char)) :
    ∃ r, List.intercalate sep (x :: xs) = x ++ r := by
  cases xs with
  | nil => exact ⟨[], by simp [List.intercalate, List.intersperse]⟩
  | cons y t =>
    refine ⟨sep ++ List.intercalate sep (y :: t), ?_⟩
    simp [List.intercalate, List.intersperse]

/-- A non-empty `str.strip()` result has non-whitespace first and last
characters: `dropWhile` on it and on its reverse are the identity. -/
theorem pyStrip_clean (l : List Char) (hne : pyStrip l ≠ []) :
    (pyStrip l).dropWhile pyIsSpace = pyStrip l ∧
      (pyStrip l).reverse.dropWhile pyIsSpace = (pyStrip l).reverse := by
  have hdef : pyStrip l = ((l.dropWhile pyIsSpace).reverse.dropWhile pyIsSpace).reverse := rfl
  constructor
  · -- head side: pyStrip l is a prefix of dropWhile l, whose head fails p
    obtain ⟨v, hv⟩ := List.dropWhile_suffix (l := (l.dropWhile pyIsSpace).reverse) pyIsSpace
    have hy : l.dropWhile pyIsSpace = pyStrip l ++ v.reverse := by
      have h3 : (v ++ (l.dropWhile pyIsSpace).reverse.dropWhile pyIsSpace).reverse
          = l.dropWhile pyIsSpace := by rw [hv, List.reverse_reverse]
      rw [← h3, List.reverse_append, ← hdef]
    obtain ⟨e, es, hes⟩ : ∃ e es, pyStrip l = e :: es := by
      cases hps : pyStrip l with
      | nil => exact absurd hps hne
      | cons e es => exact ⟨e, es, rfl⟩
    have hhead : pyIsSpace e = false := by
      apply dropWhile_head_false pyIsSpace l e (es ++ v.reverse)
      rw [hy, hes, List.cons_append]
    rw [hes, List.dropWhile_cons, if_neg (by simp [hhead])]
  · -- tail side: the reverse of pyStrip l is itself a dropWhile result
    rw [hdef, List.reverse_reverse]
    obtain ⟨d, ds, hds⟩ : ∃ d ds,
        (l.dropWhile pyIsSpace).reverse.dropWhile pyIsSpace = d :: ds := by
      cases hu : (l.dropWhile pyIsSpace).reverse.dropWhile pyIsSpace with
      | nil =>
        rw [hdef, hu] at hne
        simp at hne
      | cons d ds => exact ⟨d, ds, rfl⟩
    have hd : pyIsSpace d = false := dropWhile_head_false _ _ _ _ hds
    rw [hds, List.dropWhile_cons, if_neg (by simp [hd])]

/-- Model of `flushSection` written as an unconditional equation. -/
theorem flushSection_eq (st : SegState) (e : Nat) :
    flushSection st e =
      if pyStrip (List.intercalate ['\n'] st.currentLines) = [] then
        { st with currentLines := [] }
      else
        { st with
          sections := st.sections ++
            [{ name := st.currentName, title := st.currentTitle,
               text := pyStrip (List.intercalate ['\n'] st.currentLines),
               pageStart := st.sectionStart, pageEnd := e, metadata := st.currentMeta }],
          currentLines := [] } := rfl

/-- Flushing an accumulator whose first buffered line is a non-empty,
already-stripped string emits exactly one section whose text starts with
that line. -/
theorem flushSection_clean_head (st : SegState) (Pg : Nat) (x : List Char)
    (xs : List (List Char)) (hcl : st.currentLines = x :: xs) (hx : x ≠ [])
    (h1 : x.dropWhile pyIsSpace = x) (h2 : x.reverse.dropWhile pyIsSpace = x.reverse) :
    ∃ t, (flushSection st Pg).sections = st.sections ++
      [{ name := st.currentName, title := st.currentTitle, text := x ++ t,
         pageStart := st.sectionStart, pageEnd := Pg, metadata := st.currentMeta }] := by
  obtain ⟨r, hr⟩ := intercalate_cons_head ['\n'] x xs
  obtain ⟨t, ht⟩ := strip_append_of_clean x r hx h1 h2
  have hcontent : pyStrip (List.intercalate ['\n'] st.currentLines) = x ++ t := by
    rw [hcl, hr, ht]
  have hne : ¬ (x ++ t = []) := by
    obtain ⟨c, cs, rfl⟩ : ∃ c cs, x = c :: cs := by
      cases x with
      | nil => exact absurd rfl hx
      | cons c cs => exact ⟨c, cs, rfl⟩
    simp
  refine ⟨t, ?_⟩
  rw [flushSection_eq, hcontent, if_neg hne]

/-- The segmentation loop only ever appends sections. -/
theorem segLoop_flush_mono (P : SegParams α) :
    ∀ (rest : List α) (st : SegState) (Pg : Nat),
      ∃ more, (flushSection (segLoop P st rest) Pg).sections = st.sections ++ more := by
  intro rest
  induction rest with
  | nil =>
    intro st Pg
    rw [segLoop_nil]
    exact flushSection_sections_mono st Pg
  | cons a rest ih =>
    intro st Pg
    rw [segLoop_cons]
    obtain ⟨more, hm⟩ := ih (segStep P st a) Pg
    by_cases hh : P.isHead a = true
    · obtain ⟨hsec, _, _, _, _⟩ := segStep_head_fields P st a hh
      obtain ⟨d, hd⟩ :=
        flushSection_sections_mono st (if st.sectionStart < P.pg a then P.pg a - 1 else P.pg a)
      rw [hsec, hd] at hm
      exact ⟨d ++ more, by rw [hm, List.append_assoc]⟩
    · have hh' : P.isHead a = false := by revert hh; cases P.isHead a <;> simp
      obtain ⟨hsec, _, _, _, _, _⟩ := segStep_body_fields P st a hh'
      rw [hsec] at hm
      exact ⟨more, hm⟩

/-- The first section emitted after the current accumulator was seeded
with a non-empty stripped line `x` (followed by any body lines) has `x`
as a prefix of its text and carries the accumulator's name, title and
metadata — regardless of what the remaining input does. -/
theorem segLoop_firstEmitted (P : SegParams α) (x : List Char) (hx : x ≠ [])
    (h1 : x.dropWhile pyIsSpace = x) (h2 : x.reverse.dropWhile pyIsSpace = x.reverse) :
    ∀ (rest : List α) (st : SegState) (Pg : Nat) (xs : List (List Char)),
      st.currentLines = x :: xs →
      ∃ sec tail,
        (flushSection (segLoop P st rest) Pg).sections = st.sections ++ sec :: tail ∧
        (∃ t, sec.text = x ++ t) ∧
        sec.name = st.currentName ∧ sec.title = st.currentTitle ∧
        sec.metadata = st.currentMeta := by
  intro rest
  induction rest with
  | nil =>
    intro st Pg xs hcl
    rw [segLoop_nil]
    obtain ⟨t, ht⟩ := flushSection_clean_head st Pg x xs hcl hx h1 h2
    refine ⟨{ name := st.currentName, title := st.currentTitle, text := x ++ t,
              pageStart := st.sectionStart, pageEnd := Pg, metadata := st.currentMeta }, [],
            ?_, ⟨t, rfl⟩, rfl, rfl, rfl⟩
    exact ht
  | cons a rest ih =>
    intro st Pg xs hcl
    rw [segLoop_cons]
    by_cases hh : P.isHead a = true
    · obtain ⟨t, ht⟩ := flushSection_clean_head st
        (if st.sectionStart < P.pg a then P.pg a - 1 else P.pg a) x xs hcl hx h1 h2
      obtain ⟨hsec, _, _, _, _⟩ := segStep_head_fields P st a hh
      obtain ⟨more, hm⟩ := segLoop_flush_mono P rest (segStep P st a) Pg
      rw [hsec, ht] at hm
      refine ⟨{ name := st.currentName, title := st.currentTitle, text := x ++ t,
                pageStart := st.sectionStart,
                pageEnd := if st.sectionStart < P.pg a then P.pg a - 1 else P.pg a,
                metadata := st.currentMeta }, more,
             ?_, ⟨t, rfl⟩, rfl, rfl, rfl⟩
      rw [hm, List.append_assoc]
      rfl
    · have hh' : P.isHead a = false := by revert hh; cases P.isHead a <;> simp
      obtain ⟨hsec, _, hcl', hnm, hti, hmeta⟩ := segStep_body_fields P st a hh'
      have hcl2 : (segStep P st a).currentLines = x :: (xs ++ [P.bodyTxt a]) := by
        rw [hcl', hcl]
        rfl
      obtain ⟨sec, tail, ha1, ha2, ha3, ha4, ha5⟩ := ih (segStep P st a) Pg _ hcl2
      rw [hsec] at ha1
      rw [hnm] at ha3
      rw [hti] at ha4
      rw [hmeta] at ha5
      exact ⟨sec, tail, ha1, ha2, ha3, ha4, ha5⟩

/-- C9 (confirmed): a heading line is not discarded — after a heading
step, in both the text ('_extract_from_text') and PDF
(`_segment_into_sections`) paths, whatever the remaining input and final
flush page are, the next section emitted begins with the heading line
itself and carries the heading's normalised name and title.  (In the PDF
path line texts are stripped at extraction time, which the two
`dropWhile` hypotheses express.) -/
theorem heading_line_kept :
    (∀ (st : SegState) (i : Nat) (line : List Char) (rest : List (Nat × List Char)) (Pg : Nat),
      lineIsSectionHeading (pyStrip line) = true →
      ∃ sec tail,
        (flushSection (segLoop textSegParams (segStep textSegParams st (i, line)) rest)
            Pg).sections
          = (segStep textSegParams st (i, line)).sections ++ sec :: tail ∧
        (∃ t, sec.text = pyStrip line ++ t) ∧
        sec.name = (normaliseHeading (pyStrip line)).1 ∧
        sec.title = (normaliseHeading (pyStrip line)).2) ∧
    (∀ (st : SegState) (lf : LineInfo) (rest : List LineInfo) (avg : PyFloat) (Pg : Nat),
      looksLikeHeading lf avg = true →
      lf.text.dropWhile pyIsSpace = lf.text →
      lf.text.reverse.dropWhile pyIsSpace = lf.text.reverse →
      ∃ sec tail,
        (flushSection (segLoop (pdfSegParams avg) (segStep (pdfSegParams avg) st lf) rest)
            Pg).sections
          = (segStep (pdfSegParams avg) st lf).sections ++ sec :: tail ∧
        (∃ t, sec.text = lf.text ++ t) ∧
        sec.name = (normaliseHeading lf.text).1 ∧
        sec.title = (normaliseHeading lf.text).2) := by
  constructor
  · intro st i line rest Pg hhead
    have hne : pyStrip line ≠ [] := by
      intro h
      rw [h] at hhead
      exact absurd hhead (by decide)
    obtain ⟨hc1, hc2⟩ := pyStrip_clean line hne
    have hh : textSegParams.isHead (i, line) = true := hhead
    obtain ⟨_, _, hcl, hnm, hti⟩ := segStep_head_fields textSegParams st (i, line) hh
    obtain ⟨sec, tail, ha1, ha2, ha3, ha4, _⟩ :=
      segLoop_firstEmitted textSegParams (pyStrip line) hne hc1 hc2 rest
        (segStep textSegParams st (i, line)) Pg [] hcl
    refine ⟨sec, tail, ha1, ha2, ?_, ?_⟩
    · rw [ha3, hnm]
      rfl
    · rw [ha4, hti]
      rfl
  · intro st lf rest avg Pg hhead hs1 hs2
    have hstrip : pyStrip lf.text = lf.text := by
      unfold pyStrip dropTrailing
      rw [hs1, hs2, List.reverse_reverse]
    have hne : lf.text ≠ [] := by
      intro h
      have hps : pyStrip lf.text = [] := by rw [hstrip, h]
      simp [looksLikeHeading, hps] at hhead
    have hh : (pdfSegParams avg).isHead lf = true := hhead
    obtain ⟨_, _, hcl, hnm, hti⟩ := segStep_head_fields (pdfSegParams avg) st lf hh
    obtain ⟨sec, tail, ha1, ha2, ha3, ha4, _⟩ :=
      segLoop_firstEmitted (pdfSegParams avg) lf.text hne hs1 hs2 rest
        (segStep (pdfSegParams avg) st lf) Pg [] hcl
    refine ⟨sec, tail, ha1, ha2, ?_, ?_⟩
    · rw [ha3, hnm]
      rfl
    · rw [ha4, hti]
      rfl

/-- Witness for C9: after the heading step on `"References"` in text
mode, the next emitted section starts with `"References"` and is named
`references`. -/
theorem heading_line_kept_witness :
    ∃ sec tail,
      (flushSection
          (segLoop textSegParams
            (segStep textSegParams
              { sections := [], currentLines := [], currentName := s ("body"),
                currentTitle := s ("Body"),
                currentMeta := { sectionType := some (s ("body")), isReference := false },
                sectionStart := 1 }
              (1, s ("References")))
            [(2, s ("Smith 2020"))]) 2).sections
        = (segStep textSegParams
            { sections := [], currentLines := [], currentName := s ("body"),
              currentTitle := s ("Body"),
              currentMeta := { sectionType := some (s ("body")), isReference := false },
              sectionStart := 1 }
            (1, s ("References"))).sections ++ sec :: tail ∧
      (∃ t, sec.text = pyStrip (s ("References")) ++ t) ∧
      sec.name = (normaliseHeading (pyStrip (s ("References")))).1 ∧
      sec.title = (normaliseHeading (pyStrip (s ("References")))).2 :=
  heading_line_kept.1 _ 1 (s ("References")) [(2, s ("Smith 2020"))] 2 (by decide)

/-- C2 (confirmed): starting from an index whose vector and metadata
counts agree, a successful `add` grows both stores by `len(chunks)` and
keeps them equal, a failed `add` returns the index unmutated, and `add`
fails exactly when the row count disagrees with the chunk count or the
row width (the shared dimension of all the embeddings) disagrees with
the index dimension. -/
theorem add_lockstep_invariant (idx : FaissIndex) (emb : EmbMatrix)
    (chunks : List DocumentChunk) (hinv : idx.vectors.length = idx.metadata.length) :
    (∀ idx', FaissIndex.add idx emb chunks = (idx', none) →
      idx'.vectors.length = idx'.metadata.length ∧
      idx'.vectors.length = idx.vectors.length + chunks.length ∧
      idx'.metadata.length = idx.metadata.length + chunks.length) ∧
    (∀ idx' e, FaissIndex.add idx emb chunks = (idx', some e) → idx' = idx) ∧
    ((FaissIndex.add idx emb chunks).2.isSome = true ↔
      (emb.rows.length ≠ chunks.length ∨ emb.ncols ≠ idx.dim)) := by
  by_cases h1 : emb.rows.length = chunks.length
  · by_cases h2 : emb.ncols = idx.dim
    · have hadd : FaissIndex.add idx emb chunks =
          ({ idx with
              vectors := idx.vectors ++ emb.rows,
              metadata := idx.metadata ++ chunks.map serialiseChunk }, none) := by
        unfold FaissIndex.add
        rw [if_neg (by simp [h1]), if_neg (by simp [h2])]
      refine ⟨?_, ?_, ?_⟩
      · intro idx' h
        rw [hadd] at h
        injection h with hfst hsnd
        subst hfst
        refine ⟨?_, ?_, ?_⟩ <;>
          simp [List.length_append, List.length_map, h1, hinv]
      · intro idx' e h
        rw [hadd] at h
        exact absurd (Prod.ext_iff.mp h).2 (by simp)
      · rw [hadd]
        simp [h1, h2]
    · have hadd : FaissIndex.add idx emb chunks =
          (idx, some ("Embedding dimension mismatch")) := by
        unfold FaissIndex.add
        rw [if_neg (by simp [h1]), if_pos h2]
      refine ⟨?_, ?_, ?_⟩
      · intro idx' h
        rw [hadd] at h
        injection h with hfst hsnd
        exact absurd hsnd (by simp)
      · intro idx' e h
        rw [hadd] at h
        injection h with hfst hsnd
        exact hfst.symm
      · rw [hadd]
        simp [h2]
  · have hadd : FaissIndex.add idx emb chunks =
        (idx, some ("Embeddings and chunks lengths do not match")) := by
      unfold FaissIndex.add
      rw [if_pos h1]
    refine ⟨?_, ?_, ?_⟩
    · intro idx' h
      rw [hadd] at h
      injection h with hfst hsnd
      exact absurd hsnd (by simp)
    · intro idx' e h
      rw [hadd] at h
      injection h with hfst hsnd
      exact hfst.symm
    · rw [hadd]
      simp [h1]

/-- C6 (confirmed): `persist()` followed by `load()` reconstructs the
index exactly — the dimension is recovered from the stored faiss
artifact, the metadata comes back in insertion order, and every search
answers identically (scores are exact in this model, so
"floating-point tolerance" is equality); `load` fails whenever either
the vector file or the metadata file is missing. -/
theorem persist_load_roundtrip :
    (∀ idx : FaissIndex,
      ∃ idx', FaissIndex.load (FaissIndex.persist idx) = .ok idx' ∧ idx' = idx ∧
        idx'.dim = idx.dim ∧ idx'.metadata = idx.metadata ∧
        ∀ (queries : EmbMatrix) (k : Nat),
          FaissIndex.search idx' queries k = FaissIndex.search idx queries k) ∧
    (∀ mf, FaissIndex.load { vecFile := none, metaFile := mf } =
      .error ("Index files not found. Have you run ingestion yet?")) ∧
    (∀ vf, FaissIndex.load { vecFile := vf, metaFile := none } =
      .error ("Index files not found. Have you run ingestion yet?")) := by
  refine ⟨?_, ?_, ?_⟩
  · intro idx
    exact ⟨idx, rfl, rfl, rfl, rfl, fun _ _ => rfl⟩
  · intro mf
    cases mf <;> rfl
  · intro vf
    cases vf <;> rfl

/-- Scoring preserves the vector count. -/
theorem scoredGo_length (q : List Int) :
    ∀ (i : Nat) (vs : List (List Int)), (scoredGo q i vs).length = vs.length := by
  intro i vs
  induction vs generalizing i with
  | nil => rfl
  | cons v vs ih => simp [scoredGo, ih]

/-- Every scored candidate's offset is a valid vector offset. -/
theorem scoredGo_snd_lt (q : List Int) :
    ∀ (i : Nat) (vs : List (List Int)), ∀ p ∈ scoredGo q i vs, p.2 < i + vs.length := by
  intro i vs
  induction vs generalizing i with
  | nil => intro p hp; simp [scoredGo] at hp
  | cons v vs ih =>
    intro p hp
    rcases List.mem_cons.mp hp with hp | hp
    · subst hp; simp
    · have := ih (i + 1) p hp
      simp only [List.length_cons]
      omega

/-- Skipping a sentinel-only tail yields no hits. -/
theorem collectGo_replicate_none (meta : List SerializedChunk) (qi : Nat) :
    ∀ (n rank : Nat), collectGo meta qi rank (List.replicate n none) = .ok [] := by
  intro n
  induction n with
  | zero => intro rank; rfl
  | succ n ih =>
    intro rank
    rw [List.replicate_succ]
    exact ih (rank + 1)

/-- Collecting over real entries followed by sentinel padding succeeds
when every offset is in range, yields one hit per entry carrying that
query index and a stored metadata record, with ranks numbered
consecutively from the starting rank. -/
theorem collectGo_spec (meta : List SerializedChunk) (qi : Nat) :
    ∀ (entries : List (Int × Nat)) (pad rank0 : Nat),
      (∀ p ∈ entries, p.2 < meta.length) →
      ∃ hits,
        collectGo meta qi rank0 (entries.map some ++ List.replicate pad none) = .ok hits ∧
        hits.length = entries.length ∧
        (∀ h ∈ hits, h.queryIndex = qi ∧ h.chunk ∈ meta) ∧
        (∀ j, j < hits.length → (hits.getD j default).rank = rank0 + j) := by
  intro entries
  induction entries with
  | nil =>
    intro pad rank0 _
    refine ⟨[], ?_, rfl, by simp, by simp⟩
    rw [List.map_nil, List.nil_append]
    exact collectGo_replicate_none meta qi pad rank0
  | cons p rest ih =>
    intro pad rank0 hv
    obtain ⟨sc, ci⟩ := p
    have hci : ci < meta.length := hv (sc, ci) (by simp)
    have hget : meta.get? ci = some (meta.get ⟨ci, hci⟩) := List.get?_eq_get hci
    obtain ⟨hits, hh1, hh2, hh3, hh4⟩ :=
      ih pad (rank0 + 1) (fun p hp => hv p (List.mem_cons_of_mem _ hp))
    refine ⟨{ queryIndex := qi, rank := rank0, score := sc,
              chunk := meta.get ⟨ci, hci⟩ } :: hits, ?_, by simp [hh2], ?_, ?_⟩
    · simp only [List.map_cons, List.cons_append, collectGo, hget]
      rw [List.append_eq, hh1]
    · intro h hmem
      rcases List.mem_cons.mp hmem with h' | h'
      · subst h'
        exact ⟨rfl, List.get_mem meta ci hci⟩
      · exact hh3 h h'
    · intro j hj
      cases j with
      | zero => simp
      | succ j' =>
        simp only [List.length_cons] at hj
        have hj' : j' < hits.length := by omega
        rw [List.getD_cons_succ, hh4 j' hj']
        omega

/-- When `top_k` is at least the vector count, the raw search row is all
stored offsets (in ranking order) followed by sentinel padding. -/
theorem searchRow_all (vectors : List (List Int)) (q : List Int) (k : Nat)
    (hk : vectors.length ≤ k) :
    ∃ entries : List (Int × Nat),
      searchRow vectors q k = entries.map some ++ List.replicate (k - entries.length) none ∧
      entries.length = vectors.length ∧ ∀ p ∈ entries, p.2 < vectors.length := by
  have hperm := List.perm_insertionSort candRel (scoredGo q 0 vectors)
  have hlen : (List.insertionSort candRel (scoredGo q 0 vectors)).length = vectors.length := by
    rw [hperm.length_eq, scoredGo_length]
  refine ⟨List.insertionSort candRel (scoredGo q 0 vectors), ?_, hlen, ?_⟩
  · unfold searchRow
    rw [List.take_of_length_le (by rw [hlen]; exact hk)]
  · intro p hp
    have hmem : p ∈ scoredGo q 0 vectors := hperm.mem_iff.mp hp
    have := scoredGo_snd_lt q 0 vectors p hmem
    simpa using this

/-- Per-batch version of `collectGo_spec`: with lockstep metadata and
`top_k` at least the vector count, every query contributes exactly
`vectors.length` hits, each resolving to a stored metadata record. -/
theorem searchRows_full (meta : List SerializedChunk) (vectors : List (List Int)) (k : Nat)
    (hmeta : meta.length = vectors.length) (hk : vectors.length ≤ k) :
    ∀ (qs : List (List Int)) (qi : Nat),
      ∃ hits, searchRows meta vectors k qi qs = .ok hits ∧
        hits.length = qs.length * vectors.length ∧
        ∀ h ∈ hits, h.chunk ∈ meta := by
  intro qs
  induction qs with
  | nil =>
    intro qi
    exact ⟨[], rfl, by simp, by simp⟩
  | cons q qs' ih =>
    intro qi
    obtain ⟨entries, he, hlen, hvalid⟩ := searchRow_all vectors q k hk
    have hvalid' : ∀ p ∈ entries, p.2 < meta.length := by
      intro p hp
      rw [hmeta]
      exact hvalid p hp
    obtain ⟨hits1, hc1, hc2, hc3, _⟩ :=
      collectGo_spec meta qi entries (k - entries.length) 0 hvalid'
    obtain ⟨hits2, hr1, hr2, hr3⟩ := ih (qi + 1)
    refine ⟨hits1 ++ hits2, ?_, ?_, ?_⟩
    · simp only [searchRows, he, hc1, hr1]
    · rw [List.length_append, hc2, hlen, hr2, List.length_cons]
      ring
    · intro h hm
      rcases List.mem_append.mp hm with hm | hm
      · exact (hc3 h hm).2
      · exact hr3 h hm

/-- C10 (confirmed): for an index with `n` lockstep entries and a query
batch of matching width, `search` with `top_k > n` does not fail and
returns exactly `n` records per query; the `-1` sentinel padding is
skipped, never surfaced, and never used for a metadata lookup (every
returned record carries a stored metadata entry). -/
theorem search_topk_exceeds_size (idx : FaissIndex) (queries : EmbMatrix) (k : Nat)
    (hdim : queries.ncols = idx.dim)
    (hmeta : idx.metadata.length = idx.vectors.length)
    (hk : idx.vectors.length < k) :
    ∃ hits, FaissIndex.search idx queries k = .ok hits ∧
      hits.length = queries.rows.length * idx.vectors.length ∧
      ∀ h ∈ hits, h.chunk ∈ idx.metadata := by
  obtain ⟨hits, h1, h2, h3⟩ :=
    searchRows_full idx.metadata idx.vectors k hmeta (Nat.le_of_lt hk) queries.rows 0
  refine ⟨hits, ?_, h2, h3⟩
  unfold FaissIndex.search
  rw [if_neg (by simp [hdim])]
  exact h1

/-- Witness for C2: adding two dimension-2 rows with two chunks to an
empty dimension-2 index leaves the two stores in lockstep. -/
theorem add_lockstep_invariant_witness :
    (FaissIndex.add { dim := 2, vectors := [], metadata := [] }
        { rows := [[1, 0], [0, 1]], ncols := 2 } [sampleChunk, sampleChunk]).1.vectors.length =
      (FaissIndex.add { dim := 2, vectors := [], metadata := [] }
        { rows := [[1, 0], [0, 1]], ncols := 2 } [sampleChunk, sampleChunk]).1.metadata.length := by
  have h := add_lockstep_invariant { dim := 2, vectors := [], metadata := [] }
    { rows := [[1, 0], [0, 1]], ncols := 2 } [sampleChunk, sampleChunk] rfl
  exact (h.1 _ (by decide)).1

/-- Witness for C10: searching the two-entry sample index with
`top_k = 5` succeeds and returns exactly two records, both backed by
stored metadata. -/
theorem search_topk_exceeds_size_witness :
    ∃ hits, FaissIndex.search sampleIndex { rows := [[5]], ncols := 1 } 5 = .ok hits ∧
      hits.length = ({ rows := [[5]], ncols := 1 } : EmbMatrix).rows.length *
        sampleIndex.vectors.length ∧
      ∀ h ∈ hits, h.chunk ∈ sampleIndex.metadata :=
  search_topk_exceeds_size sampleIndex { rows := [[5]], ncols := 1 } 5 rfl (by decide) (by decide)

/-- C7 (confirmed): `ingest_paths` is a no-op when no chunk survives —
it returns without touching the index or the previously persisted
on-disk state (no empty index is written) — and when the batch
embedding call fails, the state (index and persisted artifacts) is
likewise untouched. -/
theorem ingest_noop_and_atomic (chunker : TextChunker)
    (embed : List (List Char) → Except String EmbMatrix)
    (st : PipelineState) (docs : List Document) :
    (chunkDocuments chunker docs = [] →
      ingestDocs chunker embed st docs = (st, none)) ∧
    (∀ e, embed ((chunkDocuments chunker docs).map DocumentChunk.text) = .error e →
      (ingestDocs chunker embed st docs).1 = st) := by
  constructor
  · intro h
    simp [ingestDocs, h]
  · intro e he
    by_cases h : chunkDocuments chunker docs = []
    · simp [ingestDocs, h]
    · simp [ingestDocs, h, he]

/-- Witness for C7: ingesting an empty document is a complete no-op, and
a failing embedding client leaves the state untouched. -/
theorem ingest_noop_and_atomic_witness :
    ingestDocs ⟨100, 20⟩ (fun _ => Except.error ("boom")) st0 [docEmpty] = (st0, none) ∧
    (ingestDocs ⟨100, 20⟩ (fun _ => Except.error ("boom")) st0 [docHello]).1 = st0 := by
  constructor
  · exact (ingest_noop_and_atomic ⟨100, 20⟩ (fun _ => Except.error ("boom")) st0 [docEmpty]).1
      (by decide)
  · exact (ingest_noop_and_atomic ⟨100, 20⟩ (fun _ => Except.error ("boom")) st0 [docHello]).2
      ("boom") rfl

/-- C1 (code bug): on the spec's two-section scenario document (with
`window_size=100`, `overlap=20`), the pipeline's chunking — which never
runs the Section Extractor, because `DocumentLoader` produces documents
with empty `sections` — yields 5 chunks that all carry section index 0
(`doc::sec::0::chunk::0..4`), not the claimed
`doc::sec::0::chunk::0..3` plus `doc::sec::1::chunk::0`.  Composing the
repository's own Section Extractor with the same chunking (last
conjunct) produces exactly the claimed two-section structure, which is
what the spec describes. -/
theorem ingest_section_structure :
    (chunkDocuments ⟨100, 20⟩ [c1Doc]).map DocumentChunk.chunkId =
      [s ("doc::sec::0::chunk::0"), s ("doc::sec::0::chunk::1"), s ("doc::sec::0::chunk::2"),
       s ("doc::sec::0::chunk::3"), s ("doc::sec::0::chunk::4")] ∧
    (chunkDocuments ⟨100, 20⟩ [c1Doc]).map (fun c => c.metadata.sectionIndex) =
      [0, 0, 0, 0, 0] ∧
    (extractFromTextSections c1Raw).map DocumentSection.name =
      [s ("introduction"), s ("references")] ∧
    (chunkDocuments ⟨100, 20⟩ [extractedC1Doc]).map DocumentChunk.chunkId =
      [s ("doc::sec::0::chunk::0"), s ("doc::sec::0::chunk::1"), s ("doc::sec::0::chunk::2"),
       s ("doc::sec::0::chunk::3"), s ("doc::sec::1::chunk::0")] := by
  refine ⟨by decide, by decide, by decide, by decide⟩

/-- Offsets of the ranked prefix kept by `searchRow` are valid vector
offsets. -/
theorem searchRow_take_valid (vectors : List (List Int)) (q : List Int) (k : Nat) :
    ∀ p ∈ (List.insertionSort candRel (scoredGo q 0 vectors)).take k,
      p.2 < vectors.length := by
  intro p hp
  have hp' := List.mem_of_mem_take hp
  have hmem := (List.perm_insertionSort candRel (scoredGo q 0 vectors)).mem_iff.mp hp'
  simpa using scoredGo_snd_lt q 0 vectors p hmem

/-- A single-row search on a lockstep index with matching dimension
always succeeds; its hits carry query position 0, consecutive ranks
from 0, and stored metadata. -/
theorem search_single_row_ok (idx : FaissIndex) (qe : List Int) (k : Nat)
    (hdim : qe.length = idx.dim) (hmeta : idx.metadata.length = idx.vectors.length) :
    ∃ hits, FaissIndex.search idx { rows := [qe], ncols := qe.length } k = .ok hits ∧
      (∀ h ∈ hits, h.queryIndex = 0 ∧ h.chunk ∈ idx.metadata) ∧
      (∀ j, j < hits.length → (hits.getD j default).rank = 0 + j) := by
  have hvalid : ∀ p ∈ (List.insertionSort candRel (scoredGo qe 0 idx.vectors)).take k,
      p.2 < idx.metadata.length := by
    intro p hp
    rw [hmeta]
    exact searchRow_take_valid idx.vectors qe k p hp
  obtain ⟨hits, h1, _, h3, h4⟩ := collectGo_spec idx.metadata 0
    ((List.insertionSort candRel (scoredGo qe 0 idx.vectors)).take k)
    (k - ((List.insertionSort candRel (scoredGo qe 0 idx.vectors)).take k).length) 0 hvalid
  have hsr : searchRow idx.vectors qe k =
      ((List.insertionSort candRel (scoredGo qe 0 idx.vectors)).take k).map some ++
        List.replicate
          (k - ((List.insertionSort candRel (scoredGo qe 0 idx.vectors)).take k).length)
          none := rfl
  refine ⟨hits, ?_, h3, h4⟩
  unfold FaissIndex.search
  rw [if_neg (by simp [hdim])]
  simp only [searchRows, hsr, h1]
  rw [List.append_nil]

/-- Model of `getD` through `map` at a valid offset. -/
theorem getD_map_lt {β γ : Type} [Inhabited β] [Inhabited γ] (f : β → γ) (l : List β) :
    ∀ (j : Nat), j < l.length → ∀ (d : γ) (d2 : β), (l.map f).getD j d = f (l.getD j d2) := by
  induction l with
  | nil => intro j hj; simp at hj
  | cons a t ih =>
    intro j hj d d2
    cases j with
    | zero => simp
    | succ j' =>
      simp only [List.map_cons, List.getD_cons_succ]
      exact ih j' (by simpa using hj) d d2

/-- C8 (corrected): for a fresh retriever over a loadable index whose
stored dimension matches the embedding client's output width and whose
metadata is in lockstep with its vectors, `retrieve` raises exactly on
blank queries; a non-blank query succeeds, populates the `_index` cache
with the loaded index, and returns records built from stored metadata,
each tagged with query position 0 and consecutive ranks from 0.  Once
the cache is populated, `retrieve` never touches storage again: its
result is identical for any storage contents and the state is
unchanged. -/
theorem retrieve_contract (embedQ : List Char → List Int) (stor : Storage) (k0 : Nat)
    (idx : FaissIndex) (query : List Char) (topKArg : Option Nat)
    (hload : FaissIndex.load stor = .ok idx)
    (hdim : (embedQ query).length = idx.dim)
    (hmeta : idx.metadata.length = idx.vectors.length) :
    (pyStrip query = [] →
      retrieve embedQ { storage := stor, topK := k0, cachedIndex := none } query topKArg =
        ({ storage := stor, topK := k0, cachedIndex := none },
         .error ("Query must not be empty"))) ∧
    (pyStrip query ≠ [] →
      ∃ recs,
        retrieve embedQ { storage := stor, topK := k0, cachedIndex := none } query topKArg =
          ({ storage := stor, topK := k0, cachedIndex := some idx }, .ok recs) ∧
        (∀ c ∈ recs, c.metadata.queryIndex = 0 ∧
          ∃ m ∈ idx.metadata, c.chunkId = m.chunkId ∧ c.documentId = m.documentId ∧
            c.text = m.text ∧ c.metadata.base = m.metadata) ∧
        (∀ j, j < recs.length → (recs.getD j default).metadata.rank = j)) ∧
    (∀ stor2 : Storage,
      (retrieve embedQ { storage := stor2, topK := k0, cachedIndex := some idx }
          query topKArg).1 =
        { storage := stor2, topK := k0, cachedIndex := some idx } ∧
      (retrieve embedQ { storage := stor2, topK := k0, cachedIndex := some idx }
          query topKArg).2 =
        (retrieve embedQ { storage := stor, topK := k0, cachedIndex := some idx }
          query topKArg).2) := by
  obtain ⟨hits, hsearch, hprops, hranks⟩ :=
    search_single_row_ok idx (embedQ query) (effTopK k0 topKArg) hdim hmeta
  refine ⟨?_, ?_, ?_⟩
  · intro hq
    simp [retrieve, hq]
  · intro hq
    refine ⟨hits.map toChunk, ?_, ?_, ?_⟩
    · simp only [retrieve, if_neg hq, loadIndexR, hload, hsearch]
    · intro c hc
      obtain ⟨hit, hhit, rfl⟩ := List.mem_map.mp hc
      obtain ⟨hq0, hm⟩ := hprops hit hhit
      exact ⟨hq0, hit.chunk, hm, rfl, rfl, rfl, rfl⟩
    · intro j hj
      have hj' : j < hits.length := by simpa using hj
      rw [getD_map_lt toChunk hits j hj' default default]
      have := hranks j hj'
      simp only [toChunk]
      omega
  · intro stor2
    constructor
    · by_cases hq : pyStrip query = []
      · simp [retrieve, hq]
      · simp only [retrieve, if_neg hq, loadIndexR]
        cases FaissIndex.search idx
            { rows := [embedQ query], ncols := (embedQ query).length }
            (effTopK k0 topKArg) <;> rfl
    · by_cases hq : pyStrip query = []
      · simp [retrieve, hq]
      · simp only [retrieve, if_neg hq, loadIndexR]
        cases FaissIndex.search idx
            { rows := [embedQ query], ncols := (embedQ query).length }
            (effTopK k0 topKArg) <;> rfl

/-- C8 counterexample: with a loadable index of dimension 2 but an
embedding client producing 3-wide vectors, `retrieve` raises on the
non-blank query `"hello"` — refuting "raises an error if and only if
the query is empty or whitespace-only (given a loadable index)". -/
theorem retrieve_error_iff_false :
    pyStrip (s ("hello")) ≠ [] ∧
    FaissIndex.load cexStorage = .ok cexIndex ∧
    (retrieve (fun _ => [1, 2, 3])
        { storage := cexStorage, topK := 5, cachedIndex := none } (s ("hello")) none).2 =
      .error ("Query embedding dimension mismatch") := by
  refine ⟨by decide, rfl, rfl⟩

/-- Witness for C8: with a matching dimension-2 embedder, retrieving
`"hello"` from the persisted one-entry index succeeds and caches the
index. -/
theorem retrieve_contract_witness :
    ∃ recs,
      retrieve (fun _ => [1, 0])
          { storage := cexStorage, topK := 5, cachedIndex := none } (s ("hello")) none =
        ({ storage := cexStorage, topK := 5, cachedIndex := some cexIndex }, .ok recs) ∧
      (∀ c ∈ recs, c.metadata.queryIndex = 0 ∧
        ∃ m ∈ cexIndex.metadata, c.chunkId = m.chunkId ∧ c.documentId = m.documentId ∧
          c.text = m.text ∧ c.metadata.base = m.metadata) ∧
      (∀ j, j < recs.length → (recs.getD j default).metadata.rank = j) :=
  (retrieve_contract (fun _ => [1, 0]) cexStorage 5 cexIndex (s ("hello")) none
    rfl (by decide) (by decide)).2.1 (by decide)
